import Mathlib

/-!
Verification development for the `python-xtce` XTCE telemetry/telecommand codec.

This file shallowly embeds the data model and the operations of
`src/xtce/xtceschema.py` and `src/xtce/xtcemsg.py` in Lean and proves
properties of the embedding.

Modelling conventions:
* Python `bitarray` values become `List Bool` (most significant bit first).
* Python `int` becomes `Int` (arbitrary precision in both worlds); machine
  byte packing (`int.to_bytes` / `int.from_bytes`) is modelled explicitly with
  range checks and `% 2^w` arithmetic.
* Python `float` values are modelled as exact rationals (`Rat`); the source
  rounds calibrated floats to 12 decimal places, which we model exactly
  (`pyRound12`).  IEEE-754 rounding noise itself is not modelled.
* Fallible Python code (raised exceptions) becomes `Except String`.
* Python `dict` records become association lists where the *last* binding
  wins, matching dict assignment/lookup observations.
* Unbounded `while`/recursion over the container dictionary becomes
  fuel-indexed structural recursion; running out of fuel is an error.
-/

set_option maxHeartbeats 2000000

namespace Xtce

/-- A bit string, most significant bit first (models `bitarray`). -/
abbrev Bits := List Bool

/-- Runtime values stored in a message record.  `rat` models Python floats as
exact rationals; `str` models Python strings; `bits` models raw `bitarray`
values used by the binary encoding. -/
inductive Value where
  | int (i : Int)
  | rat (q : Rat)
  | bool (b : Bool)
  | str (s : String)
  | bits (b : Bits)
deriving DecidableEq, Repr

/-- A message record: Python `dict` modelled as an association list where the
last binding for a key wins (matching dict overwrite semantics). -/
abbrev Entries := List (String × Value)

/-- Dict lookup: the last binding for the key wins. -/
def getEntry (es : Entries) (k : String) : Option Value :=
  es.foldl (fun acc p => if p.1 = k then some p.2 else acc) none

/-- Dict assignment: append a binding (the last binding wins on lookup). -/
def setEntry (es : Entries) (k : String) (v : Value) : Entries :=
  es ++ [(k, v)]

/-- Dict lookup that models Python's `KeyError` on a missing key. -/
def getEntryE (es : Entries) (k : String) : Except String Value :=
  match getEntry es k with
  | some v => .ok v
  | none => .error ("KeyError: " ++ k)

/-- Python `str(value)` for the value kinds the codec compares against XML
strings.  `str()` of floats and bitarrays is not needed by any modelled code
path and is left as an error marker. -/
def pyStr : Value → Except String String
  | .int i => .ok (toString i)
  | .bool b => .ok (if b then "True" else "False")
  | .str s => .ok s
  | .rat _ => .error "str() of float not modelled"
  | .bits _ => .error "str() of bitarray not modelled"

/-- Decimal digit-string value, `none` when empty or containing a non-digit. -/
def digitsVal (cs : List Char) : Option Nat :=
  if cs.isEmpty then none
  else
    cs.foldl
      (fun acc c =>
        match acc with
        | none => none
        | some n => if c.isDigit then some (10 * n + (c.toNat - '0'.toNat)) else none)
      (some 0)

/-- Python `int(s)` on a string: optional sign followed by decimal digits
(whitespace/underscore tolerance of CPython is not modelled). -/
def pyIntOfString (s : String) : Except String Int :=
  match s.data with
  | '-' :: rest =>
    match digitsVal rest with
    | some n => .ok (-(n : Int))
    | none => .error ("invalid literal for int: " ++ s)
  | '+' :: rest =>
    match digitsVal rest with
    | some n => .ok ((n : Int))
    | none => .error ("invalid literal for int: " ++ s)
  | cs =>
    match digitsVal cs with
    | some n => .ok ((n : Int))
    | none => .error ("invalid literal for int: " ++ s)

/-- Big-endian bits of `v` in a field of exactly `w` bits (low bits of `v`). -/
def natToBits : Nat → Nat → Bits
  | 0, _ => []
  | w + 1, v => natToBits w (v / 2) ++ [decide (v % 2 = 1)]

/-- Value of a big-endian bit string. -/
def bitsToNat (bs : Bits) : Nat :=
  bs.foldl (fun acc b => 2 * acc + (if b then 1 else 0)) 0

/-- `xtceschema._pad_bits`: left-pad with zero bits to a whole byte count. -/
def padBits (bs : Bits) : Bits :=
  if bs.length % 8 = 0 then bs else List.replicate (8 - bs.length % 8) false ++ bs

/-- Bytes to bits, 8 bits per byte, most significant first. -/
def bytesToBits (bs : List Nat) : Bits :=
  bs.flatMap (fun b => natToBits 8 b)

/-- Helper for `bitsToBytes` (counter bounds the recursion). -/
def bitsToBytesGo : Nat → Bits → List Nat
  | 0, _ => []
  | _ + 1, [] => []
  | n + 1, bs => bitsToNat (bs.take 8) :: bitsToBytesGo n (bs.drop 8)

/-- Bits to bytes (`bitarray.tobytes` on a byte-aligned string). -/
def bitsToBytes (bs : Bits) : List Nat :=
  bitsToBytesGo bs.length bs

/-- `int.to_bytes(nbytes, byteorder='big', signed=s)`: errors outside the
representable range, else the two's-complement / unsigned big-endian bits.
(The `nbytes = 0, v = -1` corner of CPython is not reachable from the codec,
which always uses at least one byte for a nonempty field.) -/
def toBytesBE (nbytes : Nat) (signed : Bool) (v : Int) : Except String Bits :=
  let m := 8 * nbytes
  if (if signed then -((2 : Int) ^ (m - 1)) ≤ v ∧ v < (2 : Int) ^ (m - 1)
      else 0 ≤ v ∧ v < (2 : Int) ^ m) then
    .ok (natToBits m (v.emod ((2 : Int) ^ m)).toNat)
  else
    .error "OverflowError: int too big to convert"

/-- `int.from_bytes(bytes, byteorder='big', signed=s)` on a byte-aligned bit
string. -/
def fromBytesBE (signed : Bool) (bs : Bits) : Int :=
  let u := bitsToNat bs
  if signed ∧ 2 ^ (bs.length - 1) ≤ u then (u : Int) - (2 : Int) ^ bs.length else (u : Int)

/-! ### Polynomial calibrator (`xtceschema.PolynomialCalibrator`) -/

/-- One polynomial term. -/
structure Term where
  coefficient : Rat
  exponent : Nat
deriving DecidableEq, Repr

/-- Python `round(x, 12)` uses round-half-to-even on the scaled value. -/
def pyRoundHalfEven (q : Rat) : Int :=
  let f := ⌊q⌋
  let r := q - f
  if r < 1 / 2 then f
  else if 1 / 2 < r then f + 1
  else if Even f then f else f + 1

/-- Python `round(q, 12)`. -/
def pyRound12 (q : Rat) : Rat :=
  (pyRoundHalfEven (q * 10 ^ 12) : Rat) / 10 ^ 12

/-- Python `int(q)`: truncation toward zero. -/
def intTrunc (q : Rat) : Int :=
  if 0 ≤ q then ⌊q⌋ else ⌈q⌉

/-- `PolynomialCalibrator`: terms assumed sorted by exponent from zero. -/
structure PolynomialCalibrator where
  term : List Term
deriving DecidableEq, Repr

/-- `calibrate`: direct polynomial evaluation. -/
def PolynomialCalibrator.calibrate (pc : PolynomialCalibrator) (x : Rat) : Rat :=
  (pc.term.map (fun t => t.coefficient * x ^ t.exponent)).sum

/-- `uncalibrate`: the analytic linear inverse for two terms, followed by the
source's `round(x, 12)` and `int(x)`.  The `numpy.roots` branch for three or
more terms is a companion-matrix eigenvalue computation, a numerical routine
outside this model (no modelled code path reaches it). -/
def PolynomialCalibrator.uncalibrate (pc : PolynomialCalibrator) (y : Rat) : Except String Int :=
  match pc.term with
  | [t0, t1] =>
    .ok (intTrunc (pyRound12 ((-1 * t0.coefficient + y) / t1.coefficient)))
  | _ => .error "numpy.roots branch not modelled"

/-- `DefaultCalibrator` wraps a polynomial calibrator. -/
structure DefaultCalibrator where
  polynomialCalibrator : PolynomialCalibrator
deriving DecidableEq, Repr

def DefaultCalibrator.calibrate (c : DefaultCalibrator) (x : Rat) : Rat :=
  c.polynomialCalibrator.calibrate x

def DefaultCalibrator.uncalibrate (c : DefaultCalibrator) (y : Rat) : Except String Int :=
  c.polynomialCalibrator.uncalibrate y

/-! ### Integer data encoding (`xtceschema.IntegerDataEncoding`) -/

/-- `SignedEnum` members (only the first two are implemented by the codec;
anything other than `twosComplement` packs as unsigned). -/
inductive SignedEnum where
  | unsigned
  | twosComplement
  | signMagnitude
  | IEEE754_1985
  | MILSTD_1750A
  | onesComplement
  | BCD
  | packedBCD
deriving DecidableEq, Repr

structure IntegerDataEncoding where
  encoding : SignedEnum := .unsigned
  sizeInBits : Nat := 8
  defaultCalibrator : Option DefaultCalibrator := none
deriving DecidableEq, Repr

/-- `IntegerDataEncoding._signed`. -/
def IntegerDataEncoding.signed (e : IntegerDataEncoding) : Bool :=
  e.encoding = SignedEnum.twosComplement

/-- Conversion of a value to a rational for the calibrator path
(Python `float(value)`; numeric strings are not needed by the codec paths
modelled here). -/
def valueToRat : Value → Except String Rat
  | .int i => .ok (i : Rat)
  | .rat q => .ok q
  | .bool b => .ok (if b then 1 else 0)
  | .str _ => .error "float() of str not modelled"
  | .bits _ => .error "float() of bitarray not modelled"

/-- Core of `IntegerDataEncoding.encode` once the input is an integer:
pack into `ceil(n/8)` bytes big-endian, then keep the last `sizeInBits` bits. -/
def IntegerDataEncoding.encodeInt (e : IntegerDataEncoding) (v : Int) : Except String Bits :=
  let nbytes := (e.sizeInBits + 7) / 8
  match toBytesBE nbytes e.signed v with
  | .error err => .error ("failed encoding value: " ++ err)
  | .ok bits => .ok (bits.drop (bits.length - e.sizeInBits))

/-- `IntegerDataEncoding.encode`: uncalibrate first when a calibrator is
attached; reject floats otherwise.  (Python `bool` is an `int` subtype and
packs as 0/1.) -/
def IntegerDataEncoding.encodeValue (e : IntegerDataEncoding) (v : Value) : Except String Bits :=
  match e.defaultCalibrator with
  | some cal =>
    match valueToRat v with
    | .error err => .error err
    | .ok y =>
      match cal.uncalibrate y with
      | .error err => .error err
      | .ok x => e.encodeInt x
  | none =>
    match v with
    | .rat _ => .error "unable to encode float as integer without calibrator"
    | .int i => e.encodeInt i
    | .bool b => e.encodeInt (if b then 1 else 0)
    | _ => .error "unsupported value for integer encoding"

/-- `IntegerDataEncoding.decode` up to the raw integer: length check, zero-pad
to a whole byte count, `int.from_bytes`. -/
def IntegerDataEncoding.decodeRaw (e : IntegerDataEncoding) (bs : Bits) : Except String Int :=
  if bs.length ≠ e.sizeInBits then
    .error ("field size mismatch: got=" ++ toString bs.length ++ " want=" ++ toString e.sizeInBits)
  else
    .ok (fromBytesBE e.signed (padBits bs))

/-- `IntegerDataEncoding.decode`: calibrate (and round to 12 places) when a
calibrator is attached. -/
def IntegerDataEncoding.decodeValue (e : IntegerDataEncoding) (bs : Bits) : Except String Value :=
  match e.decodeRaw bs with
  | .error err => .error err
  | .ok d =>
    match e.defaultCalibrator with
    | some cal => .ok (.rat (pyRound12 (cal.calibrate (d : Rat))))
    | none => .ok (.int d)

/-! ### Boolean data encoding (`xtceschema.BooleanDataEncoding`) -/

namespace BooleanDataEncoding

/-- `BooleanDataEncoding._to_int`: accepts `bool` and `int` only; a string
(even one of the configured labels) raises. -/
def toInt : Value → Except String Int
  | .bool b => .ok (if b then 1 else 0)
  | .int i => .ok (if i ≠ 0 then 1 else 0)
  | _ => .error "unsupported boolean value type"

/-- `BooleanDataEncoding.encode`. -/
def encodeValue (e : IntegerDataEncoding) (v : Value) : Except String Bits :=
  match toInt v with
  | .error err => .error err
  | .ok i => e.encodeValue (.int i)

/-- `BooleanDataEncoding.decode` (nonzero decodes to true). -/
def decodeValue (e : IntegerDataEncoding) (bs : Bits) : Except String Value :=
  match e.decodeValue bs with
  | .error err => .error err
  | .ok (.int i) => .ok (.bool (decide (i ≠ 0)))
  | .ok (.rat q) => .ok (.bool (decide (q ≠ 0)))
  | .ok _ => .error "unexpected decoded value kind"

end BooleanDataEncoding

/-- The integer encoding wrapped by a boolean type:
`integerDataEncoding or IntegerDataEncoding(sizeInBits=1)`. -/
def boolWrapped (o : Option IntegerDataEncoding) : IntegerDataEncoding :=
  o.getD { sizeInBits := 1 }

/-! ### String data encoding (`xtceschema.StringDataEncoding`) -/

inductive StringEncodingEnum where
  | UTF8
  | UTF16
  | UTF16LE
  | UTF16BE
  | US_ASCII
  | ISO_8859_1
  | WINDOWS_1252
deriving DecidableEq, Repr

/-- `DynamicValue` with its two possible instance references collapsed to the
referenced names. -/
structure DynamicValueRef where
  parameterInstanceRef : Option String := none
  argumentInstanceRef : Option String := none
deriving DecidableEq, Repr

/-- `SizeInBits`.  `fixed` collapses the nested `Fixed.fixedValue`;
`terminationChar` holds the byte sequence already parsed from the hex string
(`bytes.fromhex`), `none` when absent or unparseable. -/
structure SizeInBits where
  fixedValue : Option Nat := none
  fixed : Option Nat := none
  dynamicValue : Option DynamicValueRef := none
  terminationChar : Option (List Nat) := none
deriving DecidableEq, Repr

/-- The `Variable` element for variable-length strings. -/
structure VariableStringType where
  maxSizeInBits : Nat
  dynamicValue : Option DynamicValueRef := none
  terminationChar : Option (List Nat) := some [0]
deriving DecidableEq, Repr

structure StringDataEncoding where
  encoding : StringEncodingEnum := .UTF8
  sizeInBits : Option SizeInBits := none
  variableString : Option VariableStringType := none
deriving DecidableEq, Repr

/-- Resolve a dynamic size reference against already-known entries
(`argumentInstanceRef` first, then `parameterInstanceRef`), as in
`StringDataEncoding.size`. -/
def resolveDynamicRef (dv : DynamicValueRef) (params : Entries) : Except String Nat :=
  match dv.argumentInstanceRef, dv.parameterInstanceRef with
  | some r, _ =>
    match getEntry params r with
    | some (.int i) => .ok i.toNat
    | some _ => .error "int() of non-int dynamic value not modelled"
    | none => .error ("dynamic value reference " ++ r ++ " not found")
  | none, some r =>
    match getEntry params r with
    | some (.int i) => .ok i.toNat
    | some _ => .error "int() of non-int dynamic value not modelled"
    | none => .error ("dynamic value reference " ++ r ++ " not found")
  | none, none => .error "dynamicValue has no reference"

/-- `StringDataEncoding._get_termination_bytes`: `sizeInBits` takes priority
over the `Variable` element. -/
def StringDataEncoding.getTerminationBytes (e : StringDataEncoding) : Option (List Nat) :=
  match e.sizeInBits with
  | some sz => sz.terminationChar
  | none =>
    match e.variableString with
    | some v => v.terminationChar
    | none => none

/-- `StringDataEncoding.size` (bit count, possibly from a prior field).
A literal `fixedValue=0` is falsy in Python and falls through, modelled by the
`getD 0` test. -/
def StringDataEncoding.size (e : StringDataEncoding) (params : Entries) : Except String Nat :=
  match e.variableString with
  | some v =>
    match v.dynamicValue with
    | some dv => resolveDynamicRef dv params
    | none => .ok v.maxSizeInBits
  | none =>
    match e.sizeInBits with
    | none => .error "StringDataEncoding requires sizeInBits or variable"
    | some sz =>
      if sz.fixedValue.getD 0 ≠ 0 then .ok (sz.fixedValue.getD 0)
      else
        match sz.fixed with
        | some n => .ok n
        | none =>
          match sz.dynamicValue with
          | some dv => resolveDynamicRef dv params
          | none => .error "unable to determine string size"

/-- The byte-level core of `StringDataEncoding.encode` (everything after the
charset codec): truncate / terminate / zero-pad the payload into the target
buffer, then emit `target_bits` bits. -/
def StringDataEncoding.encodePayload (encodedBytes : List Nat) (targetBits : Nat)
    (termination : Option (List Nat)) : Bits :=
  let targetBytes := targetBits / 8
  let eb :=
    if encodedBytes.length > targetBytes then encodedBytes.take targetBytes
    else if encodedBytes.length < targetBytes then
      let eb1 :=
        match termination with
        | some t =>
          if encodedBytes.length + t.length ≤ targetBytes then encodedBytes ++ t
          else encodedBytes
        | none => encodedBytes
      if eb1.length < targetBytes then
        eb1 ++ List.replicate (targetBytes - eb1.length) 0
      else eb1
    else encodedBytes
  (bytesToBits eb).take targetBits

/-- The charset codec (`value.encode(python_encoding)`).  Only UTF-8 is
modelled; the other codecs are external text machinery no modelled claim
exercises. -/
def charsetEncode (enc : StringEncodingEnum) (s : String) : Except String (List Nat) :=
  match enc with
  | .UTF8 => .ok (s.toUTF8.toList.map (fun b => b.toNat))
  | _ => .error "charset not modelled"

/-- `StringDataEncoding.encode`: stringify non-strings, charset-encode, then
pack into the sized buffer. -/
def StringDataEncoding.encode (e : StringDataEncoding) (v : Value) (params : Entries) :
    Except String Bits :=
  match (match v with | .str s => Except.ok s | other => pyStr other) with
  | .error err => .error err
  | .ok s =>
    match charsetEncode e.encoding s with
    | .error err => .error err
    | .ok payload =>
      match e.size params with
      | .error err => .error err
      | .ok targetBits =>
        .ok (StringDataEncoding.encodePayload payload targetBits e.getTerminationBytes)

/-- First index at which `pat` occurs as a contiguous sublist of `l`
(Python `bytes.find`). -/
def findSubseqIdx (pat : List Nat) : List Nat → Option Nat
  | [] => if pat = [] then some 0 else none
  | x :: rest =>
    if pat.isPrefixOf (x :: rest) then some 0
    else (findSubseqIdx pat rest).map (· + 1)

/-- Strip trailing zero bytes (Python `bytes.rstrip(b'\x00')`). -/
def dropTrailingZeros (l : List Nat) : List Nat :=
  (l.reverse.dropWhile (· = 0)).reverse

/-- `StringDataEncoding.decode`: pad to bytes, truncate at the termination
sequence (or strip trailing zero bytes), then charset-decode.  The
`errors='replace'` fallback is not modelled (kept as an error marker). -/
def StringDataEncoding.decode (e : StringDataEncoding) (bs : Bits) : Except String Value :=
  let bytes := bitsToBytes (padBits bs)
  let stripped :=
    match e.getTerminationBytes with
    | some t =>
      match findSubseqIdx t bytes with
      | some i => bytes.take i
      | none => bytes
    | none => dropTrailingZeros bytes
  match e.encoding with
  | .UTF8 =>
    match String.fromUTF8? (ByteArray.mk ((stripped.map (fun n => UInt8.ofNat n)).toArray)) with
    | some s => .ok (.str s)
    | none => .error "charset decode with replacement not modelled"
  | _ => .error "charset not modelled"

/-! ### Binary data encoding (`xtceschema.BinaryDataEncoding`) -/

structure BinaryDataEncoding where
  sizeInBits : SizeInBits
deriving DecidableEq, Repr

/-- `BinaryDataEncoding.size`: fixed, or a positive integer read from a prior
parameter (`parameterInstanceRef` only in this code path). -/
def BinaryDataEncoding.size (e : BinaryDataEncoding) (params : Entries) : Except String Nat :=
  if e.sizeInBits.fixedValue.getD 0 ≠ 0 then .ok (e.sizeInBits.fixedValue.getD 0)
  else
    match e.sizeInBits.fixed with
    | some n => .ok n
    | none =>
      match e.sizeInBits.dynamicValue with
      | some dv =>
        match dv.parameterInstanceRef with
        | some r =>
          match getEntry params r with
          | some (.int i) =>
            if 0 < i then .ok i.toNat
            else .error "dynamic value parameter must be greater than zero"
          | some _ => .error "dynamic value parameter must be integer"
          | none => .error "failed to retrieve dynamic value parameter"
        | none => .error "failed to retrieve dynamic value parameter"
      | none => .error "failed to retrieve dynamic value parameter"

/-- `BinaryDataEncoding.encode` is the identity on bit strings.  (A non-bits
value would fail later at concatenation in Python; the error is surfaced here
in the pure model.) -/
def BinaryDataEncoding.encode (v : Value) : Except String Bits :=
  match v with
  | .bits b => .ok b
  | _ => .error "binary encoding expects a bitarray value"

def BinaryDataEncoding.decode (bs : Bits) : Except String Value :=
  .ok (.bits bs)

/-! ### Entry types (the `_type_idx` of `xtceschema.SpaceSystem`)

The modelled parameter/argument types are those the message codec claims
exercise: integer-backed types (integer, enumerated, absolute-time all share
`IntegerDataEncoding`), boolean, string and binary.  Array types and the
unimplemented native float encoding are outside the model. -/

inductive EntryType where
  | intT (e : IntegerDataEncoding)
  | boolT (zeroStringValue oneStringValue : String) (e : Option IntegerDataEncoding)
  | strT (e : StringDataEncoding)
  | binT (e : BinaryDataEncoding)
deriving DecidableEq, Repr

/-- `data_encoding.size(parameters)` dispatch. -/
def EntryType.sizeBits : EntryType → Entries → Except String Nat
  | .intT e, _ => .ok e.sizeInBits
  | .boolT _ _ oe, _ => .ok (boolWrapped oe).sizeInBits
  | .strT e, es => e.size es
  | .binT e, es => e.size es

/-- `data_encoding.encode` dispatch; only string types receive the record
(`encode_and_append_entry` in `xtcemsg.py`). -/
def EntryType.encodeValue : EntryType → Value → Entries → Except String Bits
  | .intT e, v, _ => e.encodeValue v
  | .boolT _ _ oe, v, _ => BooleanDataEncoding.encodeValue (boolWrapped oe) v
  | .strT e, v, es => e.encode v es
  | .binT _, v, _ => BinaryDataEncoding.encode v

/-- `data_encoding.decode` dispatch (`pop_entry` in `xtcemsg.py`). -/
def EntryType.decodeValue : EntryType → Bits → Except String Value
  | .intT e, b => e.decodeValue b
  | .boolT _ _ oe, b => BooleanDataEncoding.decodeValue (boolWrapped oe) b
  | .strT e, b => e.decode b
  | .binT _, b => BinaryDataEncoding.decode b

/-! ### Containers, comparisons and the space system (`xtceschema`) -/

/-- An equality comparison (`Comparison`); `inst` models the XML `instance`
attribute (a Lean keyword). -/
structure Comparison where
  comparisonOperator : String := "=="
  value : String
  inst : Nat := 0
  useCalibratedValue : Bool := true
  parameterRef : String
deriving DecidableEq, Repr

/-- `RestrictionCriteria`: either a single comparison or a comparison list
(the list `none` models a missing `ComparisonList`). -/
structure RestrictionCriteria where
  comparisonList : Option (List Comparison) := none
  comparison : Option Comparison := none
deriving DecidableEq, Repr

structure BaseContainer where
  containerRef : String
  restrictionCriteria : Option RestrictionCriteria := none
deriving DecidableEq, Repr

/-- A container entry.  `containerRefE`'s `includeCondition` is the collapsed
`ComparisonList` (`none` models its absence, which raises when flattened).
The unused `includeCondition` field of `ParameterRefEntry` (never read by the
planner or codec) is omitted. -/
inductive Entry where
  | paramRef (parameterRef : String)
  | argRef (argumentRef : String)
  | containerRefE (containerRef : String) (includeCondition : Option (List Comparison))
  | fixedValueE (binaryValue : Bits) (sizeInBits : Nat)
deriving DecidableEq, Repr

/-- `FixedValueEntry.value`: the last `sizeInBits` bits of the hex-decoded
constant (Python's `[-n:]` slice, which is the whole string when `n = 0`). -/
def fixedEntryValue (bv : Bits) (n : Nat) : Bits :=
  if n = 0 then bv else bv.drop (bv.length - n)

structure SequenceContainer where
  name : String
  abstract : Bool := false
  entryList : List Entry := []
  baseContainer : Option BaseContainer := none
deriving DecidableEq, Repr

structure CommandContainer where
  name : String
  entryList : List Entry := []
  baseContainer : Option BaseContainer := none
deriving DecidableEq, Repr

/-- `MetaCommand`; `baseMetaCommand` is the collapsed `metaCommandRef`
(`some ""` models an empty reference, which stops the chain like `None`). -/
structure MetaCommand where
  name : String := ""
  abstract : Bool := false
  commandContainer : CommandContainer
  baseMetaCommand : Option String := none
  argumentList : List (String × String) := []
deriving DecidableEq, Repr

/-- Either container kind, as returned by `SpaceSystem.get_container`. -/
inductive ContainerAny where
  | seqC (c : SequenceContainer)
  | cmdC (c : CommandContainer)
deriving DecidableEq, Repr

def ContainerAny.entryList : ContainerAny → List Entry
  | .seqC c => c.entryList
  | .cmdC c => c.entryList

def ContainerAny.baseContainer : ContainerAny → Option BaseContainer
  | .seqC c => c.baseContainer
  | .cmdC c => c.baseContainer

/-- A message type: a sequence container (telemetry) or a meta-command. -/
inductive MsgType where
  | seq (c : SequenceContainer)
  | cmd (m : MetaCommand)
deriving DecidableEq, Repr

def MsgType.abstract : MsgType → Bool
  | .seq c => c.abstract
  | .cmd m => m.abstract

def MsgType.name : MsgType → String
  | .seq c => c.name
  | .cmd m => m.name

structure Parameter where
  name : String
  parameterTypeRef : String
deriving DecidableEq, Repr

/-- The space system dictionary.  The separate parameter/argument type sets of
the source are collapsed into the single name index the code actually builds
(`_type_idx`); parameter sets from telemetry and command metadata are likewise
collapsed in build order. -/
structure SpaceSystem where
  sequenceContainers : List SequenceContainer := []
  metaCommands : List MetaCommand := []
  parameters : List Parameter := []
  entryTypes : List (String × EntryType) := []
deriving Repr

/-- Lookup in an association list built like a Python dict comprehension:
the last binding for a name wins. -/
def lookupLast {α : Type} (l : List (String × α)) (k : String) : Option α :=
  l.foldl (fun acc p => if p.1 = k then some p.2 else acc) none

def SpaceSystem.getEntryType (ss : SpaceSystem) (n : String) : Except String EntryType :=
  match lookupLast ss.entryTypes n with
  | some t => .ok t
  | none => .error ("unknown entry type: " ++ n)

def SpaceSystem.getParameter (ss : SpaceSystem) (n : String) : Except String Parameter :=
  match lookupLast (ss.parameters.map (fun p => (p.name, p))) n with
  | some p => .ok p
  | none => .error ("unknown Parameter: " ++ n)

def SpaceSystem.getSequenceContainer (ss : SpaceSystem) (n : String) :
    Except String SequenceContainer :=
  match lookupLast (ss.sequenceContainers.map (fun c => (c.name, c))) n with
  | some c => .ok c
  | none => .error ("unknown SequenceContainer: " ++ n)

def SpaceSystem.getMetaCommand (ss : SpaceSystem) (n : String) : Except String MetaCommand :=
  match lookupLast (ss.metaCommands.map (fun m => (m.name, m))) n with
  | some m => .ok m
  | none => .error ("unknown MetaCommand: " ++ n)

/-- `SpaceSystem.get_container`: command containers are indexed first, then
sequence containers (so a sequence container with the same name wins). -/
def SpaceSystem.getContainer (ss : SpaceSystem) (n : String) : Except String ContainerAny :=
  match lookupLast
      (ss.metaCommands.map (fun m => (m.commandContainer.name, ContainerAny.cmdC m.commandContainer))
        ++ ss.sequenceContainers.map (fun c => (c.name, ContainerAny.seqC c))) n with
  | some c => .ok c
  | none => .error ("unknown container: " ++ n)

/-- `SpaceSystem.find_inheritors`: message types whose base link names the
given type's container. -/
def SpaceSystem.findInheritors (ss : SpaceSystem) (mt : MsgType) : List MsgType :=
  let ref :=
    match mt with
    | .cmd m => m.commandContainer.name
    | .seq c => c.name
  (ss.sequenceContainers.filter
      (fun sc =>
        match sc.baseContainer with
        | some b => b.containerRef = ref
        | none => false)).map MsgType.seq
    ++ (ss.metaCommands.filter
        (fun mc =>
          match mc.commandContainer.baseContainer with
          | some b => b.containerRef = ref
          | none => false)).map MsgType.cmd

/-- A message record paired with its type (`xtcemsg.Message`). -/
structure Message where
  message_type : MsgType
  entries : Entries
deriving Repr

/-! ### Entry planner (`SpaceSystemEncoder._build_entry_plan`) -/

/-- The comparisons contributed by one base link: a single `comparison` if
present, else the `comparisonList` (whose absence raises). -/
def linkRestrictions (bc : BaseContainer) : Except String (List Comparison) :=
  match bc.restrictionCriteria with
  | none => .ok []
  | some rc =>
    match rc.comparison with
    | some c => .ok [c]
    | none =>
      match rc.comparisonList with
      | some l => .ok l
      | none => .error "AttributeError: comparisonList is None"

/-- A planned entry with its required include conditions. -/
abbrev PlanItem := Entry × Option (List Comparison)

abbrev Plan := List PlanItem

/-- The planner's control states: the two `while` loops of
`_build_entry_plan` (with their `plan`/`restrictions` accumulators) and the
per-entry flattening `for` loop. -/
inductive PlanCall where
  | top (mt : MsgType)
  | cmdChain (con : CommandContainer) (plan : Plan) (restr : List Comparison)
  | seqChain (con : ContainerAny) (plan : Plan) (restr : List Comparison)
  | flat (ents : List Entry)
deriving Repr

/-- `_build_entry_plan`, fuel-indexed (the source loops/recurses unboundedly
over the dictionary; every step here consumes one unit of fuel). -/
def planStep (ss : SpaceSystem) : Nat → PlanCall → Except String (Plan × List Comparison)
  | 0, _ => .error "fuel exhausted"
  | fuel + 1, call =>
    match call with
    | .top mt =>
      match mt with
      | .cmd mc => planStep ss fuel (.cmdChain mc.commandContainer [] [])
      | .seq sc => planStep ss fuel (.seqChain (.seqC sc) [] [])
    | .cmdChain con plan restr =>
      let plan := (con.entryList.map (fun e => (e, (none : Option (List Comparison))))) ++ plan
      match con.baseContainer with
      | none => .ok (plan, restr)
      | some bc =>
        match linkRestrictions bc with
        | .error e => .error e
        | .ok lr =>
          match ss.getContainer bc.containerRef with
          | .error e => .error e
          | .ok (.cmdC c) => planStep ss fuel (.cmdChain c plan (restr ++ lr))
          | .ok (.seqC s) => planStep ss fuel (.seqChain (.seqC s) plan (restr ++ lr))
    | .seqChain con plan restr =>
      match planStep ss fuel (.flat con.entryList) with
      | .error e => .error e
      | .ok (np, nr) =>
        let plan := np ++ plan
        let restr := nr ++ restr
        match con.baseContainer with
        | none => .ok (plan, restr)
        | some bc =>
          match linkRestrictions bc with
          | .error e => .error e
          | .ok lr =>
            match ss.getContainer bc.containerRef with
            | .error e => .error e
            | .ok next => planStep ss fuel (.seqChain next plan (restr ++ lr))
    | .flat [] => .ok ([], [])
    | .flat (ent :: rest) =>
      match ent with
      | .containerRefE ref cond =>
        match ss.getSequenceContainer ref with
        | .error e => .error e
        | .ok c =>
          match planStep ss fuel (.top (.seq c)) with
          | .error e => .error e
          | .ok (eplan, erest) =>
            match cond with
            | none => .error "AttributeError: includeCondition is None"
            | some nc =>
              let hp := eplan.map (fun pe => (pe.1, some (nc ++ pe.2.getD [])))
              let hr := eplan.foldl (fun acc _ => acc ++ erest) []
              match planStep ss fuel (.flat rest) with
              | .error e => .error e
              | .ok (rp, rr) => .ok (hp ++ rp, hr ++ rr)
      | e =>
        match planStep ss fuel (.flat rest) with
        | .error er => .error er
        | .ok (rp, rr) => .ok ((e, none) :: rp, rr)

/-- `_build_entry_plan` proper. -/
def buildEntryPlan (ss : SpaceSystem) (fuel : Nat) (mt : MsgType) :
    Except String (Plan × List Comparison) :=
  planStep ss fuel (.top mt)

/-! ### Message codec (`SpaceSystemEncoder.encode` / `decode`) -/

/-- `conditions_met`: assert the supported comparison trio, then compare
`str(entries[ref])` with the XML string; first mismatch is `false`. -/
def conditionsMet (es : Entries) : List Comparison → Except String Bool
  | [] => .ok true
  | c :: rest =>
    if c.comparisonOperator ≠ "==" then .error "unsupported ComparisonOperator"
    else if c.inst ≠ 0 then .error "unsupported instance value"
    else if c.useCalibratedValue ≠ true then .error "unsupported useCalibratedValue"
    else
      match getEntryE es c.parameterRef with
      | .error e => .error e
      | .ok v =>
        match pyStr v with
        | .error e => .error e
        | .ok s => if s ≠ c.value then .ok false else conditionsMet es rest

/-- `if conds and not conditions_met(conds)`: whether the entry is processed
(`none` or an empty list is falsy and never skips). -/
def conditionsPass (es : Entries) : Option (List Comparison) → Except String Bool
  | none => .ok true
  | some [] => .ok true
  | some cs => conditionsMet es cs

/-- Restriction merging on encode: assert the supported trio, then write
`int(value)` over the caller's record, unconditionally. -/
def injectRestrictions : List Comparison → Entries → Except String Entries
  | [], es => .ok es
  | c :: rest, es =>
    if c.comparisonOperator ≠ "==" then .error "unsupported ComparisonOperator"
    else if c.inst ≠ 0 then .error "unsupported instance value"
    else if c.useCalibratedValue ≠ true then .error "unsupported useCalibratedValue"
    else
      match pyIntOfString c.value with
      | .error e => .error e
      | .ok i => injectRestrictions rest (setEntry es c.parameterRef (.int i))

/-- The walk over `baseMetaCommand` links collecting the argument-type index
(dict `update`: ancestors overwrite descendants). -/
def argWalk (ss : SpaceSystem) : Nat → MetaCommand → List (String × String) →
    Except String (List (String × String))
  | 0, _, _ => .error "fuel exhausted"
  | fuel + 1, cur, idx =>
    let idx := idx ++ cur.argumentList
    match cur.baseMetaCommand with
    | none => .ok idx
    | some ref =>
      if ref = "" then .ok idx
      else
        match ss.getMetaCommand ref with
        | .error e => .error e
        | .ok nxt => argWalk ss fuel nxt idx

/-- The argument-type index (`arg_type_idx`), empty for telemetry. -/
def buildArgIdx (ss : SpaceSystem) (fuel : Nat) : MsgType → Except String (List (String × String))
  | .seq _ => .ok []
  | .cmd mc => argWalk ss fuel mc []

/-- The encode loop over the plan, concatenating encoded entries in order. -/
def encodeEntries (ss : SpaceSystem) (argIdx : List (String × String)) (es : Entries) :
    Plan → Except String Bits
  | [] => .ok []
  | (ent, conds) :: rest =>
    match conditionsPass es conds with
    | .error e => .error e
    | .ok false => encodeEntries ss argIdx es rest
    | .ok true =>
      match ent with
      | .argRef name =>
        match lookupLast argIdx name with
        | none => .error ("KeyError: " ++ name)
        | some tn =>
          match ss.getEntryType tn with
          | .error e => .error e
          | .ok et =>
            match getEntryE es name with
            | .error e => .error e
            | .ok v =>
              match et.encodeValue v es with
              | .error e => .error e
              | .ok bits =>
                match encodeEntries ss argIdx es rest with
                | .error e => .error e
                | .ok bs => .ok (bits ++ bs)
      | .paramRef name =>
        match ss.getParameter name with
        | .error e => .error e
        | .ok p =>
          match ss.getEntryType p.parameterTypeRef with
          | .error e => .error e
          | .ok et =>
            match getEntryE es name with
            | .error e => .error e
            | .ok v =>
              match et.encodeValue v es with
              | .error e => .error e
              | .ok bits =>
                match encodeEntries ss argIdx es rest with
                | .error e => .error e
                | .ok bs => .ok (bits ++ bs)
      | .fixedValueE bv n =>
        match encodeEntries ss argIdx es rest with
        | .error e => .error e
        | .ok bs => .ok (fixedEntryValue bv n ++ bs)
      | .containerRefE _ _ => .error "unable to encode entry"

/-- `SpaceSystemEncoder.encode`.  The source mutates `msg.entries` when
merging restrictions; the mutated message is returned alongside the bits. -/
def encodeFn (ss : SpaceSystem) (fuel : Nat) (msg : Message) :
    Except String (Bits × Message) :=
  match buildEntryPlan ss fuel msg.message_type with
  | .error e => .error e
  | .ok (plan, restrictions) =>
    match injectRestrictions restrictions msg.entries with
    | .error e => .error e
    | .ok es =>
      match buildArgIdx ss fuel msg.message_type with
      | .error e => .error e
      | .ok argIdx =>
        match encodeEntries ss argIdx es plan with
        | .error e => .error e
        | .ok bits => .ok (bits, { msg with entries := es })

/-- `pop_entry`: ask the type for its size, slice that many bits, decode,
store under the entry name. -/
def popEntry (es : Entries) (b : Bits) (name : String) (et : EntryType) :
    Except String (Entries × Bits) :=
  match et.sizeBits es with
  | .error e => .error e
  | .ok len =>
    match et.decodeValue (b.take len) with
    | .error e => .error e
    | .ok v => .ok (setEntry es name v, b.drop len)

/-- The decode loop of `_decode_message` over the plan.  After each parameter
entry whose name is restricted, the restriction equalities are re-checked on
the just-updated record; a failing check is a hard error. -/
def decodeEntries (ss : SpaceSystem) (argIdx : List (String × String))
    (restr : List Comparison) : Entries → Bits → Plan → Except String (Entries × Bits)
  | es, b, [] => .ok (es, b)
  | es, b, (ent, conds) :: rest =>
    match conditionsPass es conds with
    | .error e => .error e
    | .ok false => decodeEntries ss argIdx restr es b rest
    | .ok true =>
      match ent with
      | .argRef name =>
        match lookupLast argIdx name with
        | none => .error ("KeyError: " ++ name)
        | some tn =>
          match ss.getEntryType tn with
          | .error e => .error e
          | .ok et =>
            match popEntry es b name et with
            | .error e => .error e
            | .ok (es', b') => decodeEntries ss argIdx restr es' b' rest
      | .paramRef name =>
        match ss.getParameter name with
        | .error e => .error e
        | .ok p =>
          match ss.getEntryType p.parameterTypeRef with
          | .error e => .error e
          | .ok et =>
            match popEntry es b name et with
            | .error e => .error e
            | .ok (es', b') =>
              match restr.filter (fun c => c.parameterRef = name) with
              | [] => decodeEntries ss argIdx restr es' b' rest
              | comps =>
                match conditionsMet es' comps with
                | .error e => .error e
                | .ok true => decodeEntries ss argIdx restr es' b' rest
                | .ok false => .error ("restriction criteria violated for entry " ++ name)
      | .fixedValueE bv n =>
        if b.take n = fixedEntryValue bv n then decodeEntries ss argIdx restr es (b.drop n) rest
        else .error "fixed value mismatch"
      | .containerRefE _ _ => .error "unable to decode entry"

/-- `SpaceSystemEncoder._decode_message`. -/
def decodeMessageFn (ss : SpaceSystem) (fuel : Nat) (mt : MsgType) (b : Bits) :
    Except String (Message × Bits) :=
  match buildEntryPlan ss fuel mt with
  | .error e => .error e
  | .ok (plan, restrictions) =>
    match buildArgIdx ss fuel mt with
    | .error e => .error e
    | .ok argIdx =>
      match decodeEntries ss argIdx restrictions [] b plan with
      | .error e => .error e
      | .ok (es, rem) => .ok ({ message_type := mt, entries := es }, rem)

/-- The control states of `SpaceSystemEncoder.decode`: a decode of one message
type, or the loop speculatively trying a list of inheritors (carrying the
error message raised when none succeeds). -/
inductive DecCall where
  | decOne (mt : MsgType) (b : Bits) (rc : Bool)
  | tryInh (l : List MsgType) (b : Bits) (rc : Bool) (err : String)
deriving Repr

/-- `SpaceSystemEncoder.decode`, fuel-indexed.  Each speculative attempt runs
on the saved original bits; any error during an attempt moves on to the next
inheritor; exhausting the inheritors raises the saved error. -/
def decodeStep (ss : SpaceSystem) : Nat → DecCall → Except String Message
  | 0, _ => .error "fuel exhausted"
  | fuel + 1, .decOne mt b rc =>
    match decodeMessageFn ss (fuel + 1) mt b with
    | .error e => .error e
    | .ok (msg, rem) =>
      if rem = [] ∧ (mt.abstract = false ∨ rc = false) then .ok msg
      else if mt.abstract = false then
        .error (toString rem.length ++ "b remain to decode yet message type " ++ mt.name
          ++ " not abstract")
      else
        decodeStep ss fuel
          (.tryInh (ss.findInheritors mt) b rc
            ("no inheritor of " ++ mt.name ++ " found to handle remaining "
              ++ toString rem.length ++ "b of message"))
  | _ + 1, .tryInh [] _ _ err => .error err
  | fuel + 1, .tryInh (inh :: rest) b rc err =>
    match decodeStep ss fuel (.decOne inh b rc) with
    | .ok m => .ok m
    | .error _ => decodeStep ss fuel (.tryInh rest b rc err)

/-- `SpaceSystemEncoder.decode` proper. -/
def decodeFn (ss : SpaceSystem) (fuel : Nat) (mt : MsgType) (b : Bits) (rc : Bool) :
    Except String Message :=
  decodeStep ss fuel (.decOne mt b rc)

deriving instance DecidableEq for Except

deriving instance DecidableEq for Message

/-- The parameter names of the plan's parameter entries (the keys the decoder
can populate). -/
def planParamNames (plan : Plan) : List String :=
  plan.filterMap (fun pe =>
    match pe.1 with
    | .paramRef n => some n
    | _ => none)

/-- Specification-side description of restriction merging: the last
restriction naming a key determines its merged value, `int(value)`,
independent of the caller-supplied value. -/
def injSim (rl : List Comparison) (k : String) (d : Option Value) : Option Value :=
  rl.foldl
    (fun acc c =>
      if c.parameterRef = k then (pyIntOfString c.value).toOption.map Value.int else acc)
    d

/-- The per-entry obligations under which a plan round-trips: an
unconditional parameter entry whose type resolves, whose encoding has a
record-independent size, and whose record value encodes to exactly that many
bits and decodes back; every chain restriction naming it must be the
supported equality trio and match the value's string form. -/
def PlanItemOK (ss : SpaceSystem) (restrictions : List Comparison) (es0 : Entries)
    (pe : PlanItem) : Prop :=
  pe.2 = none ∧
  ∃ name p et n v bits,
    pe.1 = .paramRef name ∧
    ss.getParameter name = .ok p ∧
    ss.getEntryType p.parameterTypeRef = .ok et ∧
    (∀ es, et.sizeBits es = .ok n) ∧
    getEntry es0 name = some v ∧
    (∀ es, et.encodeValue v es = .ok bits) ∧
    bits.length = n ∧
    et.decodeValue bits = .ok v ∧
    (∀ c ∈ restrictions, c.parameterRef = name →
      c.comparisonOperator = "==" ∧ c.inst = 0 ∧ c.useCalibratedValue = true ∧
      pyStr v = .ok c.value)

/-! ### Concrete example dictionaries used by witnesses and counterexamples -/

/-- A concrete telemetry container with a single 3-bit unsigned parameter. -/
def conC : SequenceContainer := { name := "C", entryList := [.paramRef "P"] }

def ss1 : SpaceSystem :=
  { sequenceContainers := [conC]
    parameters := [{ name := "P", parameterTypeRef := "I3" }]
    entryTypes := [("I3", .intT { encoding := .unsigned, sizeInBits := 3 })] }

/-- A record carrying the out-of-range value 9 for a 3-bit field. -/
def msg1 : Message := { message_type := .seq conC, entries := [("P", .int 9)] }

/-- A restriction `B == 1` on the base link of a chain whose target parameter
is boolean-typed. -/
def compB : Comparison := { value := "1", parameterRef := "B" }

def baseC : SequenceContainer := { name := "Base", abstract := true }

def subC : SequenceContainer :=
  { name := "Sub", entryList := [.paramRef "B"]
    baseContainer :=
      some { containerRef := "Base", restrictionCriteria := some { comparison := some compB } } }

def ssB : SpaceSystem :=
  { sequenceContainers := [baseC, subC]
    parameters := [{ name := "B", parameterTypeRef := "BoolT" }]
    entryTypes := [("BoolT", .boolT "False" "True" none)] }

def msgB : Message := { message_type := .seq subC, entries := [("B", .bool true)] }

/-- A concrete container with a single one-bit fixed-value entry. -/
def conD : SequenceContainer := { name := "D", entryList := [.fixedValueE [true] 1] }

def ss2 : SpaceSystem := { sequenceContainers := [conD] }

/-- A dictionary with one 8-bit unsigned parameter, used to exercise the
restriction re-check during decoding. -/
def ssP : SpaceSystem :=
  { parameters := [{ name := "P", parameterTypeRef := "I8" }]
    entryTypes := [("I8", .intT { encoding := .unsigned, sizeInBits := 8 })] }

def comp5 : Comparison := { value := "5", parameterRef := "P" }

/-- A two-container inheritance chain (outer `B8`, inner `S8`). -/
def base8 : SequenceContainer := { name := "B8", entryList := [.paramRef "X"] }

def sub8 : SequenceContainer :=
  { name := "S8", entryList := [.paramRef "Y"]
    baseContainer := some { containerRef := "B8" } }

def ss8 : SpaceSystem := { sequenceContainers := [base8, sub8] }

/-- A concrete container with two 8-bit unsigned parameters, for the
round-trip witness. -/
def conW : SequenceContainer := { name := "W", entryList := [.paramRef "A", .paramRef "Bp"] }

def ssW : SpaceSystem :=
  { sequenceContainers := [conW]
    parameters :=
      [{ name := "A", parameterTypeRef := "I8" }, { name := "Bp", parameterTypeRef := "I8" }]
    entryTypes := [("I8", .intT { encoding := .unsigned, sizeInBits := 8 })] }

def msgW : Message := { message_type := .seq conW, entries := [("A", .int 5), ("Bp", .int 7)] }

/-! ## Bit-arithmetic lemmas -/

theorem natToBits_length (w v : Nat) : (natToBits w v).length = w := by
  induction w generalizing v with
  | zero => rfl
  | succ w ih => simp [natToBits, ih]

theorem bitsToNat_foldl (bs : Bits) :
    ∀ a : Nat,
      List.foldl (fun acc b => 2 * acc + (if b then 1 else 0)) a bs =
        a * 2 ^ bs.length + bitsToNat bs := by
  induction bs with
  | nil => intro a; simp [bitsToNat]
  | cons b bs ih =>
    intro a
    have hb : bitsToNat (b :: bs) = (if b then 1 else 0) * 2 ^ bs.length + bitsToNat bs := by
      show List.foldl _ (2 * 0 + (if b then 1 else 0)) bs = _
      rw [ih]
      ring_nf
    simp only [List.foldl_cons, List.length_cons, hb]
    rw [ih]
    ring

theorem bitsToNat_lt (bs : Bits) : bitsToNat bs < 2 ^ bs.length := by
  induction bs with
  | nil => simp [bitsToNat]
  | cons b bs ih =>
    have hb : bitsToNat (b :: bs) = (if b then 1 else 0) * 2 ^ bs.length + bitsToNat bs := by
      show List.foldl _ (2 * 0 + (if b then 1 else 0)) bs = _
      rw [bitsToNat_foldl]
      ring_nf
    have hbit : (if b then 1 else 0) ≤ 1 := by split <;> omega
    simp only [hb, List.length_cons, pow_succ]
    nlinarith [ih, Nat.pos_pow_of_pos bs.length (show 0 < 2 by norm_num)]

theorem bitsToNat_append (xs ys : Bits) :
    bitsToNat (xs ++ ys) = bitsToNat xs * 2 ^ ys.length + bitsToNat ys := by
  show List.foldl _ 0 (xs ++ ys) = _
  rw [List.foldl_append]
  exact bitsToNat_foldl ys (bitsToNat xs)

theorem bitsToNat_natToBits (w v : Nat) : bitsToNat (natToBits w v) = v % 2 ^ w := by
  induction w generalizing v with
  | zero => simp [natToBits, bitsToNat, Nat.mod_one]
  | succ w ih =>
    have hsingle : bitsToNat [decide (v % 2 = 1)] = v % 2 := by
      have h2 : v % 2 < 2 := Nat.mod_lt _ (by norm_num)
      by_cases h : v % 2 = 1 <;> simp [bitsToNat, h] <;> omega
    rw [natToBits, bitsToNat_append, hsingle, ih]
    simp only [List.length_cons, List.length_nil, pow_one]
    have hx : v % (2 * 2 ^ w) % 2 = v % 2 := Nat.mod_mod_of_dvd v ⟨2 ^ w, rfl⟩
    have hdiv : v % (2 * 2 ^ w) / 2 = v / 2 % 2 ^ w := Nat.mod_mul_right_div_self v 2 (2 ^ w)
    have hdm : 2 * (v % (2 * 2 ^ w) / 2) + v % (2 * 2 ^ w) % 2 = v % (2 * 2 ^ w) :=
      Nat.div_add_mod _ 2
    have hpow : (2 : Nat) ^ (w + 1) = 2 * 2 ^ w := by ring
    rw [hpow]
    omega

theorem bitsToNat_drop (k : Nat) (bs : Bits) :
    bitsToNat (bs.drop k) = bitsToNat bs % 2 ^ (bs.length - k) := by
  have h1 : bitsToNat bs =
      bitsToNat (bs.take k) * 2 ^ (bs.drop k).length + bitsToNat (bs.drop k) := by
    conv_lhs => rw [← List.take_append_drop k bs]
    rw [bitsToNat_append]
  have h2 : bs.length - k = (bs.drop k).length := (List.length_drop k bs).symm
  rw [h1, h2, Nat.mul_comm, Nat.mul_add_mod, Nat.mod_eq_of_lt (bitsToNat_lt _)]

theorem bitsToNat_replicate_false (k : Nat) (bs : Bits) :
    bitsToNat (List.replicate k false ++ bs) = bitsToNat bs := by
  rw [bitsToNat_append]
  have h0 : bitsToNat (List.replicate k false) = 0 := by
    induction k with
    | zero => rfl
    | succ k ih => exact ih
  simp [h0]

theorem bitsToNat_padBits (bs : Bits) : bitsToNat (padBits bs) = bitsToNat bs := by
  unfold padBits
  split
  · rfl
  · exact bitsToNat_replicate_false _ _

theorem padBits_length (bs : Bits) :
    (padBits bs).length = 8 * ((bs.length + 7) / 8) := by
  unfold padBits
  split
  · omega
  · simp only [List.length_append, List.length_replicate]
    omega

theorem toBytesBE_ok (nb : Nat) (s : Bool) (v : Int)
    (h : if s then -((2 : Int) ^ (8 * nb - 1)) ≤ v ∧ v < (2 : Int) ^ (8 * nb - 1)
        else 0 ≤ v ∧ v < (2 : Int) ^ (8 * nb)) :
    toBytesBE nb s v = .ok (natToBits (8 * nb) (v.emod ((2 : Int) ^ (8 * nb))).toNat) := by
  unfold toBytesBE
  exact if_pos h

/-! ## Claim theorems for the integer encoding (C4, C10) -/

/-- Claim C4, counterexample: a 3-bit two's-complement encoding with the
in-range value −3 does not round-trip — the decoder zero-pads to a byte and
sign-interprets the padded byte, so `decode (encode (−3)) = 5`. -/
theorem c4_counterexample :
    (IntegerDataEncoding.mk .twosComplement 3 none).encodeValue (.int (-3)) =
      .ok [true, false, true]
    ∧ (IntegerDataEncoding.mk .twosComplement 3 none).decodeValue [true, false, true] =
      .ok (.int 5)
    ∧ Value.int 5 ≠ Value.int (-3)
    ∧ -((2 : Int) ^ (3 - 1)) ≤ -3 ∧ (-3 : Int) < (2 : Int) ^ (3 - 1) :=
  ⟨rfl, rfl, by decide, by decide, by decide⟩

/-- Claim C4 (amended): for a calibrator-free integer encoding of width `n`,
every in-range value encodes to exactly `n` bits and decodes back, provided
the encoding is unsigned, or is two's complement with `n` a whole number of
bytes or the value nonnegative (for negative values at non-byte widths the
zero-padded decode loses the sign, as the counterexample shows). -/
theorem c4_roundtrip (e : IntegerDataEncoding) (v : Int)
    (hcal : e.defaultCalibrator = none)
    (h : (e.encoding = SignedEnum.unsigned ∧ 0 ≤ v ∧ v < (2 : Int) ^ e.sizeInBits)
       ∨ (e.encoding = SignedEnum.twosComplement ∧ 0 < e.sizeInBits
          ∧ -((2 : Int) ^ (e.sizeInBits - 1)) ≤ v ∧ v < (2 : Int) ^ (e.sizeInBits - 1)
          ∧ (e.sizeInBits % 8 = 0 ∨ 0 ≤ v))) :
    ∃ bits, e.encodeValue (.int v) = .ok bits ∧ bits.length = e.sizeInBits
      ∧ e.decodeValue bits = .ok (.int v) := by
  have hc : ∀ k : Nat, ((2 ^ k : Nat) : Int) = (2 : Int) ^ k := fun k => by push_cast; ring
  rcases h with ⟨hu, hv0, hvlt⟩ | ⟨hs, hn, hlo, hhi, hsp⟩
  -- unsigned
  · have hsgn : e.signed = false := by
      simp [IntegerDataEncoding.signed, hu]
    set n := e.sizeInBits with hn_def
    set M := 8 * ((n + 7) / 8) with hM_def
    have hnM : n ≤ M := by omega
    have hpowle : (2 : Int) ^ n ≤ (2 : Int) ^ M := pow_le_pow_right (by norm_num) hnM
    have hvM : v < (2 : Int) ^ M := lt_of_lt_of_le hvlt hpowle
    have hemod : v.emod ((2 : Int) ^ M) = v := Int.emod_eq_of_lt hv0 hvM
    have htb : toBytesBE ((n + 7) / 8) e.signed v = .ok (natToBits M v.toNat) := by
      rw [hsgn, toBytesBE_ok ((n + 7) / 8) false v (by simpa using ⟨hv0, hvM⟩)]
      rw [← hM_def, hemod]
    have henc : e.encodeValue (.int v) = .ok ((natToBits M v.toNat).drop (M - n)) := by
      simp only [IntegerDataEncoding.encodeValue, hcal, IntegerDataEncoding.encodeInt]
      rw [htb]
      simp [natToBits_length]
    have hlen : ((natToBits M v.toNat).drop (M - n)).length = n := by
      simp only [List.length_drop, natToBits_length]
      omega
    have hvnat : v.toNat < 2 ^ n := by
      have h1 : (v.toNat : Int) < (2 : Int) ^ n := by
        rw [Int.toNat_of_nonneg hv0]; exact hvlt
      rw [← hc n] at h1
      exact_mod_cast h1
    have hvnatM : v.toNat < 2 ^ M := lt_of_lt_of_le hvnat (Nat.pow_le_pow_right (by norm_num) hnM)
    have hval : bitsToNat ((natToBits M v.toNat).drop (M - n)) = v.toNat := by
      rw [bitsToNat_drop, bitsToNat_natToBits, natToBits_length]
      have hMn : M - (M - n) = n := by omega
      rw [hMn, Nat.mod_eq_of_lt hvnatM, Nat.mod_eq_of_lt hvnat]
    have hdecraw : e.decodeRaw ((natToBits M v.toNat).drop (M - n)) = .ok v := by
      unfold IntegerDataEncoding.decodeRaw fromBytesBE
      rw [if_neg (by rw [hlen]; exact fun hcon => hcon rfl)]
      rw [bitsToNat_padBits, hval]
      rw [if_neg (by rw [hsgn]; simp)]
      rw [Int.toNat_of_nonneg hv0]
    have hdec : e.decodeValue ((natToBits M v.toNat).drop (M - n)) = .ok (.int v) := by
      simp [IntegerDataEncoding.decodeValue, hdecraw, hcal]
    exact ⟨_, henc, hlen, hdec⟩
  -- two's complement
  · have hsgn : e.signed = true := by
      simp [IntegerDataEncoding.signed, hs]
    set n := e.sizeInBits with hn_def
    set M := 8 * ((n + 7) / 8) with hM_def
    have hnM : n ≤ M := by omega
    have hple : (2 : Int) ^ (n - 1) ≤ (2 : Int) ^ (M - 1) :=
      pow_le_pow_right (by norm_num) (by omega)
    by_cases hv0 : 0 ≤ v
    -- nonnegative value: zero-padding cannot flip the interpreted sign
    · have hvM1 : v < (2 : Int) ^ (M - 1) := lt_of_lt_of_le hhi hple
      have hrange : -((2 : Int) ^ (M - 1)) ≤ v ∧ v < (2 : Int) ^ (M - 1) :=
        ⟨le_trans (neg_nonpos_of_nonneg (by positivity)) hv0, hvM1⟩
      have hvltn : v < (2 : Int) ^ n :=
        lt_of_lt_of_le hhi (pow_le_pow_right (by norm_num) (by omega))
      have hvM : v < (2 : Int) ^ M :=
        lt_of_lt_of_le hvltn (pow_le_pow_right (by norm_num) hnM)
      have hemod : v.emod ((2 : Int) ^ M) = v := Int.emod_eq_of_lt hv0 hvM
      have htb : toBytesBE ((n + 7) / 8) e.signed v = .ok (natToBits M v.toNat) := by
        rw [hsgn, toBytesBE_ok ((n + 7) / 8) true v (by simpa using hrange)]
        rw [← hM_def, hemod]
      have henc : e.encodeValue (.int v) = .ok ((natToBits M v.toNat).drop (M - n)) := by
        simp only [IntegerDataEncoding.encodeValue, hcal, IntegerDataEncoding.encodeInt]
        rw [htb]
        simp [natToBits_length]
      have hlen : ((natToBits M v.toNat).drop (M - n)).length = n := by
        simp only [List.length_drop, natToBits_length]
        omega
      have hvnat1 : v.toNat < 2 ^ (n - 1) := by
        have h1 : (v.toNat : Int) < (2 : Int) ^ (n - 1) := by
          rw [Int.toNat_of_nonneg hv0]; exact hhi
        rw [← hc (n - 1)] at h1
        exact_mod_cast h1
      have hvnat : v.toNat < 2 ^ n :=
        lt_of_lt_of_le hvnat1 (Nat.pow_le_pow_right (by norm_num) (by omega))
      have hvnatM : v.toNat < 2 ^ M :=
        lt_of_lt_of_le hvnat (Nat.pow_le_pow_right (by norm_num) hnM)
      have hval : bitsToNat ((natToBits M v.toNat).drop (M - n)) = v.toNat := by
        rw [bitsToNat_drop, bitsToNat_natToBits, natToBits_length]
        have hMn : M - (M - n) = n := by omega
        rw [hMn, Nat.mod_eq_of_lt hvnatM, Nat.mod_eq_of_lt hvnat]
      have hpadlen : (padBits ((natToBits M v.toNat).drop (M - n))).length = M := by
        rw [padBits_length, hlen]
      have hnotbig : ¬ 2 ^ ((padBits ((natToBits M v.toNat).drop (M - n))).length - 1) ≤
          bitsToNat (padBits ((natToBits M v.toNat).drop (M - n))) := by
        rw [hpadlen, bitsToNat_padBits, hval]
        have h1 : v.toNat < 2 ^ (M - 1) :=
          lt_of_lt_of_le hvnat1 (Nat.pow_le_pow_right (by norm_num) (by omega))
        exact not_le.mpr h1
      have hdecraw : e.decodeRaw ((natToBits M v.toNat).drop (M - n)) = .ok v := by
        unfold IntegerDataEncoding.decodeRaw fromBytesBE
        rw [if_neg (by rw [hlen]; exact fun hcon => hcon rfl)]
        rw [if_neg (by intro hcon; exact hnotbig hcon.2)]
        rw [bitsToNat_padBits, hval, Int.toNat_of_nonneg hv0]
      have hdec : e.decodeValue ((natToBits M v.toNat).drop (M - n)) = .ok (.int v) := by
        simp [IntegerDataEncoding.decodeValue, hdecraw, hcal]
      exact ⟨_, henc, hlen, hdec⟩
    -- negative value: the amendment requires a whole number of bytes
    · push_neg at hv0
      have h8 : n % 8 = 0 := by
        rcases hsp with h8 | hge
        · exact h8
        · exact absurd hge (not_le.mpr hv0)
      have hMn : M = n := by omega
      have hM1 : 0 < M := by omega
      have hsum0 : 0 ≤ v + (2 : Int) ^ M := by
        have h1 : -((2 : Int) ^ M) ≤ -((2 : Int) ^ (M - 1)) :=
          neg_le_neg (pow_le_pow_right (by norm_num) (by omega))
        have h2 : -((2 : Int) ^ (M - 1)) ≤ v := by rw [hMn]; exact hlo
        linarith
      have hsumlt : v + (2 : Int) ^ M < (2 : Int) ^ M := by linarith
      have hemod : v.emod ((2 : Int) ^ M) = v + (2 : Int) ^ M := by
        have h1 : (v + (2 : Int) ^ M * 1).emod ((2 : Int) ^ M) = v.emod ((2 : Int) ^ M) :=
          Int.add_mul_emod_self_left v ((2 : Int) ^ M) 1
        have h2 : (v + (2 : Int) ^ M).emod ((2 : Int) ^ M) = v + (2 : Int) ^ M :=
          Int.emod_eq_of_lt hsum0 hsumlt
        calc v.emod ((2 : Int) ^ M) = (v + (2 : Int) ^ M * 1).emod ((2 : Int) ^ M) := h1.symm
          _ = (v + (2 : Int) ^ M).emod ((2 : Int) ^ M) := by ring_nf
          _ = v + (2 : Int) ^ M := h2
      have hrange : -((2 : Int) ^ (M - 1)) ≤ v ∧ v < (2 : Int) ^ (M - 1) := by
        constructor
        · rw [hMn]; exact hlo
        · exact lt_trans hv0 (by positivity)
      have htb : toBytesBE ((n + 7) / 8) e.signed v =
          .ok (natToBits M (v + (2 : Int) ^ M).toNat) := by
        rw [hsgn, toBytesBE_ok ((n + 7) / 8) true v (by simpa using hrange)]
        rw [← hM_def, hemod]
      have henc : e.encodeValue (.int v) =
          .ok ((natToBits M (v + (2 : Int) ^ M).toNat).drop (M - n)) := by
        simp only [IntegerDataEncoding.encodeValue, hcal, IntegerDataEncoding.encodeInt]
        rw [htb]
        simp [natToBits_length]
      have hlen : ((natToBits M (v + (2 : Int) ^ M).toNat).drop (M - n)).length = n := by
        simp only [List.length_drop, natToBits_length]
        omega
      have hxlt : (v + (2 : Int) ^ M).toNat < 2 ^ M := by
        have h1 : ((v + (2 : Int) ^ M).toNat : Int) < (2 : Int) ^ M := by
          rw [Int.toNat_of_nonneg hsum0]; exact hsumlt
        rw [← hc M] at h1
        exact_mod_cast h1
      have hval : bitsToNat ((natToBits M (v + (2 : Int) ^ M).toNat).drop (M - n)) =
          (v + (2 : Int) ^ M).toNat := by
        rw [bitsToNat_drop, bitsToNat_natToBits, natToBits_length]
        have hMn' : M - (M - n) = M := by omega
        rw [hMn', Nat.mod_eq_of_lt hxlt, Nat.mod_eq_of_lt hxlt]
      have hxge : 2 ^ (M - 1) ≤ (v + (2 : Int) ^ M).toNat := by
        have hsplit : (2 : Int) ^ M = (2 : Int) ^ (M - 1) * 2 := by
          rw [← pow_succ]
          congr 1
          omega
        have h1 : (2 : Int) ^ (M - 1) ≤ v + (2 : Int) ^ M := by
          have h2 : -((2 : Int) ^ (M - 1)) ≤ v := by rw [hMn]; exact hlo
          linarith [hsplit]
        have h3 : ((2 ^ (M - 1) : Nat) : Int) ≤ ((v + (2 : Int) ^ M).toNat : Int) := by
          rw [Int.toNat_of_nonneg hsum0, hc]; exact h1
        exact_mod_cast h3
      have hpadid : padBits ((natToBits M (v + (2 : Int) ^ M).toNat).drop (M - n)) =
          (natToBits M (v + (2 : Int) ^ M).toNat).drop (M - n) := by
        unfold padBits
        rw [if_pos (by rw [hlen]; exact h8)]
      have hlenM : ((natToBits M (v + (2 : Int) ^ M).toNat).drop (M - n)).length = M := by
        simp only [List.length_drop, natToBits_length]
        omega
      have hdecraw : e.decodeRaw ((natToBits M (v + (2 : Int) ^ M).toNat).drop (M - n)) =
          .ok v := by
        unfold IntegerDataEncoding.decodeRaw fromBytesBE
        rw [if_neg (by rw [hlen]; exact fun hcon => hcon rfl)]
        rw [hpadid, hval, hlenM]
        rw [if_pos ⟨hsgn, hxge⟩]
        rw [Int.toNat_of_nonneg hsum0]
        ring_nf
      have hdec : e.decodeValue ((natToBits M (v + (2 : Int) ^ M).toNat).drop (M - n)) =
          .ok (.int v) := by
        simp [IntegerDataEncoding.decodeValue, hdecraw, hcal]
      exact ⟨_, henc, hlen, hdec⟩

/-- Witness for C4: the claim's own example, 32-bit two's complement −30000,
which encodes to `0xFFFF8AD0` and round-trips. -/
theorem c4_roundtrip_witness :
    (IntegerDataEncoding.mk .twosComplement 32 none).encodeValue (.int (-30000)) =
      .ok (natToBits 32 0xFFFF8AD0)
    ∧ ∃ bits,
        (IntegerDataEncoding.mk .twosComplement 32 none).encodeValue (.int (-30000)) = .ok bits
        ∧ bits.length = 32
        ∧ (IntegerDataEncoding.mk .twosComplement 32 none).decodeValue bits =
            .ok (.int (-30000)) :=
  ⟨rfl,
    c4_roundtrip (IntegerDataEncoding.mk .twosComplement 32 none) (-30000) rfl
      (Or.inr ⟨rfl, by decide, by decide, by decide, Or.inl (by decide)⟩)⟩

/-- Claim C10: an unsigned, calibrator-free encoding of width `n` silently
truncates an out-of-range value that still fits the enclosing whole-byte
count — `encode` succeeds and the emitted `n` bits carry `v mod 2^n`. -/
theorem c10_out_of_range_truncation (e : IntegerDataEncoding) (v : Nat)
    (hu : e.encoding = SignedEnum.unsigned) (hcal : e.defaultCalibrator = none)
    (hlo : 2 ^ e.sizeInBits ≤ v) (hhi : v < 2 ^ (8 * ((e.sizeInBits + 7) / 8))) :
    ∃ bits, e.encodeValue (.int (v : Int)) = .ok bits ∧ bits.length = e.sizeInBits
      ∧ bitsToNat bits = v % 2 ^ e.sizeInBits := by
  have hsgn : e.signed = false := by
    simp [IntegerDataEncoding.signed, hu]
  set n := e.sizeInBits with hn_def
  set M := 8 * ((n + 7) / 8) with hM_def
  have hv0 : (0 : Int) ≤ (v : Int) := Int.natCast_nonneg v
  have hvM : (v : Int) < (2 : Int) ^ M := by exact_mod_cast hhi
  have hemod : (v : Int).emod ((2 : Int) ^ M) = (v : Int) := Int.emod_eq_of_lt hv0 hvM
  have htb : toBytesBE ((n + 7) / 8) e.signed (v : Int) = .ok (natToBits M v) := by
    rw [hsgn, toBytesBE_ok ((n + 7) / 8) false (v : Int) (by simp; exact_mod_cast hhi)]
    rw [← hM_def, hemod, Int.toNat_natCast]
  have henc : e.encodeValue (.int (v : Int)) = .ok ((natToBits M v).drop (M - n)) := by
    simp only [IntegerDataEncoding.encodeValue, hcal, IntegerDataEncoding.encodeInt]
    rw [htb]
    simp [natToBits_length]
  have hnM : n ≤ M := by omega
  have hlen : ((natToBits M v).drop (M - n)).length = n := by
    simp only [List.length_drop, natToBits_length]
    omega
  have hval : bitsToNat ((natToBits M v).drop (M - n)) = v % 2 ^ n := by
    rw [bitsToNat_drop, bitsToNat_natToBits, natToBits_length]
    have hMn : M - (M - n) = n := by omega
    rw [hMn, Nat.mod_eq_of_lt hhi]
  exact ⟨_, henc, hlen, hval⟩

/-- Witness for C10: a 3-bit unsigned field accepts 9 without raising and
emits `001`, the low 3 bits (9 mod 8 = 1). -/
theorem c10_witness :
    (IntegerDataEncoding.mk .unsigned 3 none).encodeValue (.int 9) = .ok [false, false, true]
    ∧ (9 : Nat) % 2 ^ 3 = 1
    ∧ ∃ bits,
        (IntegerDataEncoding.mk .unsigned 3 none).encodeValue (.int ((9 : Nat) : Int)) = .ok bits
        ∧ bits.length = 3 ∧ bitsToNat bits = 9 % 2 ^ 3 :=
  ⟨rfl, rfl,
    c10_out_of_range_truncation (IntegerDataEncoding.mk .unsigned 3 none) 9 rfl rfl
      (by decide) (by decide)⟩

/-! ## Claim theorems for the polynomial calibrator (C9) -/

theorem pyRoundHalfEven_intCast (x : Int) : pyRoundHalfEven (x : Rat) = x := by
  simp only [pyRoundHalfEven, Int.floor_intCast, sub_self]
  rw [if_pos (by norm_num)]

theorem pyRound12_intCast (x : Int) : pyRound12 (x : Rat) = (x : Rat) := by
  unfold pyRound12
  have h1 : (x : Rat) * 10 ^ 12 = ((x * 10 ^ 12 : Int) : Rat) := by push_cast; ring
  rw [h1, pyRoundHalfEven_intCast, h1.symm, mul_div_assoc,
    div_self (by norm_num : (10 : Rat) ^ 12 ≠ 0), mul_one]

theorem intTrunc_intCast (x : Int) : intTrunc (x : Rat) = x := by
  unfold intTrunc
  split
  · exact Int.floor_intCast x
  · exact Int.ceil_intCast x

theorem linear_calibrate_eq (c0 c1 : Rat) (q : Rat) :
    (PolynomialCalibrator.mk [Term.mk c0 0, Term.mk c1 1]).calibrate q = c0 + c1 * q := by
  unfold PolynomialCalibrator.calibrate
  simp

/-- Claim C9: for a two-term (linear) calibrator with nonzero slope,
`uncalibrate` analytically inverts `calibrate`: `uncalibrate (calibrate x) = x`
for every integer raw value, and `calibrate (uncalibrate y) = y` for every `y`
in the calibrator's range (floats are modelled as exact rationals; the
source's `round(·, 12)` is the identity on these exact values). -/
theorem c9_linear_calibrator (c0 c1 : Rat) (hc1 : c1 ≠ 0) :
    (∀ x : Int,
      (PolynomialCalibrator.mk [Term.mk c0 0, Term.mk c1 1]).uncalibrate
        ((PolynomialCalibrator.mk [Term.mk c0 0, Term.mk c1 1]).calibrate (x : Rat)) = .ok x)
    ∧ (∀ y : Rat,
        (∃ x : Int, (PolynomialCalibrator.mk [Term.mk c0 0, Term.mk c1 1]).calibrate (x : Rat) = y) →
        ∃ z : Int,
          (PolynomialCalibrator.mk [Term.mk c0 0, Term.mk c1 1]).uncalibrate y = .ok z
          ∧ (PolynomialCalibrator.mk [Term.mk c0 0, Term.mk c1 1]).calibrate (z : Rat) = y) := by
  have hunc : ∀ y : Rat,
      (PolynomialCalibrator.mk [Term.mk c0 0, Term.mk c1 1]).uncalibrate y =
        .ok (intTrunc (pyRound12 ((-1 * c0 + y) / c1))) := fun y => rfl
  have hmain : ∀ x : Int,
      (PolynomialCalibrator.mk [Term.mk c0 0, Term.mk c1 1]).uncalibrate
        ((PolynomialCalibrator.mk [Term.mk c0 0, Term.mk c1 1]).calibrate (x : Rat)) = .ok x := by
    intro x
    rw [linear_calibrate_eq, hunc]
    have harg : (-1 * c0 + (c0 + c1 * (x : Rat))) / c1 = (x : Rat) := by
      rw [show -1 * c0 + (c0 + c1 * (x : Rat)) = c1 * (x : Rat) by ring]
      exact mul_div_cancel_left₀ _ hc1
    rw [harg, pyRound12_intCast, intTrunc_intCast]
  exact ⟨hmain, fun y hy => by
    obtain ⟨x, hx⟩ := hy
    exact ⟨x, by rw [← hx]; exact hmain x, hx⟩⟩

/-- Witness for C9: the linear calibrator `y = 10 + x/10` at raw value 12. -/
theorem c9_witness :
    ((1 : Rat) / 10 ≠ 0)
    ∧ (PolynomialCalibrator.mk [Term.mk 10 0, Term.mk (1 / 10) 1]).uncalibrate
        ((PolynomialCalibrator.mk [Term.mk 10 0, Term.mk (1 / 10) 1]).calibrate ((12 : Int) : Rat)) =
        .ok 12 :=
  ⟨by norm_num, (c9_linear_calibrator 10 (1 / 10) (by norm_num)).1 12⟩

/-! ## Claim theorems for the string encoding (C5) -/

theorem bytesToBits_length (bs : List Nat) : (bytesToBits bs).length = 8 * bs.length := by
  induction bs with
  | nil => rfl
  | cons b rest ih =>
    show (natToBits 8 b ++ bytesToBits rest).length = _
    simp [natToBits_length, ih]
    ring

theorem take_bytesToBits_full (bs : List Nat) (B : Nat) (h : bs.length = B) :
    (bytesToBits bs).take (8 * B) = bytesToBits bs :=
  List.take_of_length_le (by rw [bytesToBits_length, h])

/-- Claim C5: the byte-level behaviour of `StringDataEncoding.encode` on a
`B`-byte buffer for a payload of `p` charset-encoded bytes: truncation when
`p > B`; exact fill with no terminator when `p = B`; when `p < B`, the
configured termination bytes are appended exactly when they fit
(`p + |term| ≤ B`) and the rest is zero-padded. -/
theorem c5_string_encode_buffer (payload : List Nat) (B : Nat) (term : Option (List Nat)) :
    (payload.length > B →
      StringDataEncoding.encodePayload payload (8 * B) term = bytesToBits (payload.take B))
    ∧ (payload.length = B →
      StringDataEncoding.encodePayload payload (8 * B) term = bytesToBits payload)
    ∧ (payload.length < B →
        (∀ t, term = some t → payload.length + t.length ≤ B →
          StringDataEncoding.encodePayload payload (8 * B) term =
            bytesToBits (payload ++ t ++ List.replicate (B - (payload.length + t.length)) 0))
        ∧ (∀ t, term = some t → B < payload.length + t.length →
          StringDataEncoding.encodePayload payload (8 * B) term =
            bytesToBits (payload ++ List.replicate (B - payload.length) 0))
        ∧ (term = none →
          StringDataEncoding.encodePayload payload (8 * B) term =
            bytesToBits (payload ++ List.replicate (B - payload.length) 0))) := by
  have hdiv : 8 * B / 8 = B := by omega
  refine ⟨?_, ?_, fun hlt => ⟨?_, ?_, ?_⟩⟩
  · intro hgt
    unfold StringDataEncoding.encodePayload
    simp only [hdiv]
    rw [if_pos hgt]
    exact take_bytesToBits_full _ _ (by rw [List.length_take]; omega)
  · intro heq
    unfold StringDataEncoding.encodePayload
    simp only [hdiv]
    have hA : ¬ (payload.length > B) := by omega
    have hB : ¬ (payload.length < B) := by omega
    rw [if_neg hA, if_neg hB]
    exact take_bytesToBits_full _ _ heq
  · intro t ht hfit
    subst ht
    unfold StringDataEncoding.encodePayload
    simp only [hdiv]
    have hA : ¬ (payload.length > B) := by omega
    rw [if_neg hA, if_pos hlt, if_pos hfit]
    by_cases hpad : (payload ++ t).length < B
    · rw [if_pos hpad]
      have hform : payload ++ t ++ List.replicate (B - (payload ++ t).length) 0 =
          payload ++ t ++ List.replicate (B - (payload.length + t.length)) 0 := by
        simp [List.length_append]
      rw [hform]
      exact take_bytesToBits_full _ _
        (by simp only [List.length_append, List.length_replicate]; omega)
    · rw [if_neg hpad]
      have heqB : payload.length + t.length = B := by
        simp only [List.length_append] at hpad
        omega
      have hrep : List.replicate (B - (payload.length + t.length)) (0 : Nat) = [] := by
        rw [heqB]
        simp
      rw [hrep, List.append_nil]
      exact take_bytesToBits_full _ _ (by simp only [List.length_append]; omega)
  · intro t ht hbig
    subst ht
    unfold StringDataEncoding.encodePayload
    simp only [hdiv]
    have hA : ¬ (payload.length > B) := by omega
    have hC : ¬ (payload.length + t.length ≤ B) := by omega
    rw [if_neg hA, if_pos hlt, if_neg hC, if_pos hlt]
    exact take_bytesToBits_full _ _
      (by simp only [List.length_append, List.length_replicate]; omega)
  · intro ht
    subst ht
    unfold StringDataEncoding.encodePayload
    simp only [hdiv]
    have hA : ¬ (payload.length > B) := by omega
    rw [if_neg hA, if_pos hlt, if_pos hlt]
    exact take_bytesToBits_full _ _
      (by simp only [List.length_append, List.length_replicate]; omega)

/-- Witness for C5: the claim's exact-fill example — a 5-byte payload
("Hello") in a 5-byte buffer with termination byte `00` gets no terminator. -/
theorem c5_witness :
    [72, 101, 108, 108, 111].length = 5
    ∧ StringDataEncoding.encodePayload [72, 101, 108, 108, 111] (8 * 5) (some [0]) =
        bytesToBits [72, 101, 108, 108, 111] :=
  ⟨rfl, (c5_string_encode_buffer [72, 101, 108, 108, 111] 5 (some [0])).2.1 rfl⟩

/-! ## Claim theorem for the boolean encoding (C6) -/

/-- Claim C6: the boolean codec accepts booleans and integers (any nonzero
integer packs as 1) and always decodes to a boolean, but — contradicting the
spec and the repository's own tests (`test_encode_with_string_values`,
`test_custom_string_values`) — the configured string labels are rejected with
`unsupported boolean value type`. -/
theorem c6_boolean_encoding :
    BooleanDataEncoding.encodeValue (boolWrapped none) (.str "True") =
      .error "unsupported boolean value type"
    ∧ BooleanDataEncoding.encodeValue (boolWrapped none) (.str "ON") =
      .error "unsupported boolean value type"
    ∧ BooleanDataEncoding.encodeValue (boolWrapped none) (.bool true) = .ok [true]
    ∧ BooleanDataEncoding.encodeValue (boolWrapped none) (.bool false) = .ok [false]
    ∧ BooleanDataEncoding.encodeValue (boolWrapped none) (.int 5) = .ok [true]
    ∧ BooleanDataEncoding.encodeValue (boolWrapped none) (.int 0) = .ok [false]
    ∧ BooleanDataEncoding.decodeValue (boolWrapped none) [true] = .ok (.bool true)
    ∧ BooleanDataEncoding.decodeValue (boolWrapped none) [false] = .ok (.bool false) :=
  ⟨rfl, rfl, rfl, rfl, rfl, rfl, rfl, rfl⟩

/-! ## Record (dict) lemmas -/

theorem getEntry_setEntry (es : Entries) (k k' : String) (v : Value) :
    getEntry (setEntry es k v) k' = if k = k' then some v else getEntry es k' := by
  unfold getEntry setEntry
  rw [List.foldl_append]
  simp only [List.foldl_cons, List.foldl_nil]

theorem getEntry_setEntry_self (es : Entries) (k : String) (v : Value) :
    getEntry (setEntry es k v) k = some v := by
  rw [getEntry_setEntry, if_pos rfl]

/-- All-pass characterisation of `conditions_met`. -/
theorem conditionsMet_all (es : Entries) (cs : List Comparison)
    (h : ∀ c ∈ cs, c.comparisonOperator = "==" ∧ c.inst = 0 ∧ c.useCalibratedValue = true ∧
      ∃ v, getEntry es c.parameterRef = some v ∧ pyStr v = .ok c.value) :
    conditionsMet es cs = .ok true := by
  induction cs with
  | nil => rfl
  | cons c rest ih =>
    obtain ⟨hop, hinst, hcal, v, hget, hstr⟩ := h c (List.mem_cons_self c rest)
    simp only [conditionsMet]
    rw [if_neg (by rw [hop]; simp), if_neg (by rw [hinst]; simp), if_neg (by rw [hcal]; simp)]
    unfold getEntryE
    rw [hget]
    simp only []
    rw [hstr]
    simp only []
    rw [if_neg (by simp)]
    exact ih (fun c' hc' => h c' (List.mem_cons_of_mem _ hc'))

/-! ## Claim theorem for decode dispatch (C2) -/

/-- Claim C2: the dispatch structure of `decode` — return the inner decode
when no bits remain and concreteness is satisfied; hard error when a
non-abstract type leaves bits; otherwise try each inheritor on the saved
original bits, a success returning immediately, any error being swallowed in
favour of the next candidate, and exhaustion raising the saved error. -/
theorem c2_decode_dispatch (ss : SpaceSystem) (fuel : Nat) (mt : MsgType) (b : Bits) (rc : Bool) :
    (∀ msg, decodeMessageFn ss (fuel + 1) mt b = .ok (msg, []) →
      (mt.abstract = false ∨ rc = false) → decodeFn ss (fuel + 1) mt b rc = .ok msg)
    ∧ (∀ msg rem, decodeMessageFn ss (fuel + 1) mt b = .ok (msg, rem) → rem ≠ [] →
        mt.abstract = false →
        decodeFn ss (fuel + 1) mt b rc =
          .error (toString rem.length ++ "b remain to decode yet message type " ++ mt.name
            ++ " not abstract"))
    ∧ (∀ msg rem, decodeMessageFn ss (fuel + 1) mt b = .ok (msg, rem) → mt.abstract = true →
        (rem ≠ [] ∨ rc = true) →
        decodeFn ss (fuel + 1) mt b rc =
          decodeStep ss fuel
            (.tryInh (ss.findInheritors mt) b rc
              ("no inheritor of " ++ mt.name ++ " found to handle remaining "
                ++ toString rem.length ++ "b of message")))
    ∧ (∀ err, decodeStep ss (fuel + 1) (.tryInh [] b rc err) = .error err)
    ∧ (∀ inh rest err m, decodeStep ss fuel (.decOne inh b rc) = .ok m →
        decodeStep ss (fuel + 1) (.tryInh (inh :: rest) b rc err) = .ok m)
    ∧ (∀ inh rest err e, decodeStep ss fuel (.decOne inh b rc) = .error e →
        decodeStep ss (fuel + 1) (.tryInh (inh :: rest) b rc err) =
          decodeStep ss fuel (.tryInh rest b rc err)) := by
  refine ⟨?_, ?_, ?_, ?_, ?_, ?_⟩
  · intro msg h hor
    unfold decodeFn
    simp only [decodeStep]
    rw [h]
    simp only []
    rw [if_pos ⟨by trivial, hor⟩]
  · intro msg rem h hrem habs
    unfold decodeFn
    simp only [decodeStep]
    rw [h]
    simp only []
    rw [if_neg (fun hcon => hrem hcon.1), if_pos habs]
  · intro msg rem h habs hor
    unfold decodeFn
    simp only [decodeStep]
    rw [h]
    simp only []
    rw [if_neg ?_, if_neg (by rw [habs]; simp)]
    rintro ⟨h1, h2 | h2⟩
    · rw [habs] at h2; cases h2
    · rcases hor with h3 | h3
      · exact h3 h1
      · rw [h3] at h2; cases h2
  · intro err; rfl
  · intro inh rest err m h
    simp only [decodeStep]
    rw [h]
  · intro inh rest err e h
    simp only [decodeStep]
    rw [h]

/-- Witness for C2: a concrete non-abstract container whose inner decode
consumes the whole bit string, so `decode` returns it directly. -/
theorem c2_witness :
    decodeMessageFn ss2 8 (.seq conD) [true] =
      .ok ({ message_type := .seq conD, entries := [] }, [])
    ∧ ((MsgType.seq conD).abstract = false ∨ false = false)
    ∧ decodeFn ss2 8 (.seq conD) [true] false =
        .ok { message_type := .seq conD, entries := [] } :=
  ⟨rfl, Or.inr rfl,
    (c2_decode_dispatch ss2 7 (.seq conD) [true] false).1 _ rfl (Or.inr rfl)⟩

/-! ## Claim theorem for the decode-side restriction re-check (C7) -/

/-- Claim C7: after a parameter entry is decoded and stored, a chain
restriction naming that parameter is re-checked by comparing the decoded
value's string form with the restriction's XML string; a mismatch aborts the
decode with a hard `restriction criteria violated` error. -/
theorem c7_restriction_recheck (ss : SpaceSystem) (argIdx : List (String × String))
    (restr : List Comparison) (es : Entries) (b : Bits) (rest : Plan)
    (name : String) (p : Parameter) (et : EntryType) (n : Nat) (v : Value)
    (comp : Comparison) (s : String)
    (hp : ss.getParameter name = .ok p)
    (het : ss.getEntryType p.parameterTypeRef = .ok et)
    (hsize : et.sizeBits es = .ok n)
    (hdec : et.decodeValue (b.take n) = .ok v)
    (hfilter : restr.filter (fun c => c.parameterRef = name) = [comp])
    (hop : comp.comparisonOperator = "==") (hinst : comp.inst = 0)
    (hcal : comp.useCalibratedValue = true)
    (hstr : pyStr v = .ok s) (hne : s ≠ comp.value) :
    decodeEntries ss argIdx restr es b ((.paramRef name, none) :: rest) =
      .error ("restriction criteria violated for entry " ++ name) := by
  have hpr : comp.parameterRef = name := by
    have hmem : comp ∈ restr.filter (fun c => c.parameterRef = name) := by
      rw [hfilter]; exact List.mem_singleton_self comp
    have h2 := List.mem_filter.mp hmem
    exact of_decide_eq_true h2.2
  simp only [decodeEntries, conditionsPass]
  rw [hp]
  simp only []
  rw [het]
  simp only [popEntry]
  rw [hsize]
  simp only []
  rw [hdec]
  simp only []
  rw [hfilter]
  simp only [conditionsMet]
  rw [if_neg (by rw [hop]; simp), if_neg (by rw [hinst]; simp), if_neg (by rw [hcal]; simp)]
  unfold getEntryE
  rw [hpr, getEntry_setEntry_self]
  simp only []
  rw [hstr]
  simp only []
  rw [if_pos hne]

/-- Witness for C7: decoding an 8-bit parameter `P` with decoded value 7
against the chain restriction `P == 5` raises the hard error. -/
theorem c7_witness :
    decodeEntries ssP [] [comp5] [] (natToBits 8 7) [(.paramRef "P", none)] =
      .error ("restriction criteria violated for entry " ++ "P") :=
  c7_restriction_recheck ssP [] [comp5] [] (natToBits 8 7) []
    "P" { name := "P", parameterTypeRef := "I8" }
    (.intT { encoding := .unsigned, sizeInBits := 8 }) 8 (.int 7) comp5 "7"
    rfl rfl rfl rfl rfl rfl rfl rfl rfl (by decide)

/-! ## Claim theorem for plan ordering (C8) -/

/-- Accumulator lemma for the sequence-container chain loop: the accumulated
plan is always appended after the entries contributed by the remaining chain,
for any accumulator contents. -/
theorem planStep_seq_acc (ss : SpaceSystem) :
    ∀ fuel (con : ContainerAny) (plan : Plan) (restr : List Comparison) (P : Plan)
      (R : List Comparison),
      planStep ss fuel (.seqChain con plan restr) = .ok (P, R) →
      ∃ NR, P = NR ++ plan ∧
        ∀ plan2 restr2, ∃ R2,
          planStep ss fuel (.seqChain con plan2 restr2) = .ok (NR ++ plan2, R2) := by
  intro fuel
  induction fuel with
  | zero =>
    intro con plan restr P R h
    exact absurd h (by simp [planStep])
  | succ fuel ih =>
    intro con plan restr P R h
    simp only [planStep] at h
    cases hflat : planStep ss fuel (.flat con.entryList) with
    | error e => rw [hflat] at h; cases h
    | ok pr =>
      obtain ⟨np, nr⟩ := pr
      rw [hflat] at h
      simp only [] at h
      cases hbc : con.baseContainer with
      | none =>
        rw [hbc] at h
        simp only [Except.ok.injEq, Prod.mk.injEq] at h
        refine ⟨np, h.1.symm, fun plan2 restr2 => ⟨nr ++ restr2, ?_⟩⟩
        simp only [planStep, hflat, hbc]
      | some bc =>
        rw [hbc] at h
        simp only [] at h
        cases hlr : linkRestrictions bc with
        | error e => rw [hlr] at h; cases h
        | ok lr =>
          rw [hlr] at h
          simp only [] at h
          cases hgc : ss.getContainer bc.containerRef with
          | error e => rw [hgc] at h; cases h
          | ok next =>
            rw [hgc] at h
            simp only [] at h
            obtain ⟨NR', hP, hall⟩ := ih next (np ++ plan) (nr ++ restr ++ lr) P R h
            refine ⟨NR' ++ np, by rw [hP, List.append_assoc], fun plan2 restr2 => ?_⟩
            obtain ⟨R2, hrun⟩ := hall (np ++ plan2) (nr ++ restr2 ++ lr)
            refine ⟨R2, ?_⟩
            simp only [planStep, hflat, hbc, hlr, hgc]
            rw [hrun, List.append_assoc]

/-- Accumulator lemma for the command-container chain loop. -/
theorem planStep_cmd_acc (ss : SpaceSystem) :
    ∀ fuel (con : CommandContainer) (plan : Plan) (restr : List Comparison) (P : Plan)
      (R : List Comparison),
      planStep ss fuel (.cmdChain con plan restr) = .ok (P, R) →
      ∃ NR, P = NR ++ plan ∧
        ∀ plan2 restr2, ∃ R2,
          planStep ss fuel (.cmdChain con plan2 restr2) = .ok (NR ++ plan2, R2) := by
  intro fuel
  induction fuel with
  | zero =>
    intro con plan restr P R h
    exact absurd h (by simp [planStep])
  | succ fuel ih =>
    intro con plan restr P R h
    simp only [planStep] at h
    cases hbc : con.baseContainer with
    | none =>
      rw [hbc] at h
      simp only [Except.ok.injEq, Prod.mk.injEq] at h
      refine ⟨con.entryList.map (fun e => (e, none)), h.1.symm,
        fun plan2 restr2 => ⟨restr2, ?_⟩⟩
      simp only [planStep, hbc]
    | some bc =>
      rw [hbc] at h
      simp only [] at h
      cases hlr : linkRestrictions bc with
      | error e => rw [hlr] at h; cases h
      | ok lr =>
        rw [hlr] at h
        simp only [] at h
        cases hgc : ss.getContainer bc.containerRef with
        | error e => rw [hgc] at h; cases h
        | ok next =>
          rw [hgc] at h
          cases next with
          | cmdC c =>
            simp only [] at h
            obtain ⟨NR', hP, hall⟩ :=
              ih c (con.entryList.map (fun e => (e, none)) ++ plan) (restr ++ lr) P R h
            refine ⟨NR' ++ con.entryList.map (fun e => (e, none)),
              by rw [hP, List.append_assoc], fun plan2 restr2 => ?_⟩
            obtain ⟨R2, hrun⟩ := hall (con.entryList.map (fun e => (e, none)) ++ plan2)
              (restr2 ++ lr)
            refine ⟨R2, ?_⟩
            simp only [planStep, hbc, hlr, hgc]
            rw [hrun, List.append_assoc]
          | seqC s =>
            simp only [] at h
            obtain ⟨NR', hP, hall⟩ := planStep_seq_acc ss fuel (.seqC s)
              (con.entryList.map (fun e => (e, none)) ++ plan) (restr ++ lr) P R h
            refine ⟨NR' ++ con.entryList.map (fun e => (e, none)),
              by rw [hP, List.append_assoc], fun plan2 restr2 => ?_⟩
            obtain ⟨R2, hrun⟩ := hall (con.entryList.map (fun e => (e, none)) ++ plan2)
              (restr2 ++ lr)
            refine ⟨R2, ?_⟩
            simp only [planStep, hbc, hlr, hgc]
            rw [hrun, List.append_assoc]

/-- Claim C8: the planner prepends each container's entry list while walking
the base chain, so the plan of a container is the plan of its base chain
followed by its own (flattened) entries — outer-most ancestor fields first,
the input container's fields last.  Stated for sequence-container chains, for
command-container chains, for a command chain crossing into a sequence
container, and for both planner entry points. -/
theorem c8_plan_order (ss : SpaceSystem) (fuel : Nat) :
    (∀ (con : ContainerAny) bc np nr lr next P R,
      con.baseContainer = some bc →
      planStep ss fuel (.flat con.entryList) = .ok (np, nr) →
      linkRestrictions bc = .ok lr →
      ss.getContainer bc.containerRef = .ok next →
      planStep ss (fuel + 1) (.seqChain con [] []) = .ok (P, R) →
      ∃ PP RR, planStep ss fuel (.seqChain next [] []) = .ok (PP, RR) ∧ P = PP ++ np)
    ∧ (∀ (con : CommandContainer) bc lr c P R,
      con.baseContainer = some bc →
      linkRestrictions bc = .ok lr →
      ss.getContainer bc.containerRef = .ok (.cmdC c) →
      planStep ss (fuel + 1) (.cmdChain con [] []) = .ok (P, R) →
      ∃ PP RR, planStep ss fuel (.cmdChain c [] []) = .ok (PP, RR)
        ∧ P = PP ++ con.entryList.map (fun e => (e, none)))
    ∧ (∀ (con : CommandContainer) bc lr s P R,
      con.baseContainer = some bc →
      linkRestrictions bc = .ok lr →
      ss.getContainer bc.containerRef = .ok (.seqC s) →
      planStep ss (fuel + 1) (.cmdChain con [] []) = .ok (P, R) →
      ∃ PP RR, planStep ss fuel (.seqChain (.seqC s) [] []) = .ok (PP, RR)
        ∧ P = PP ++ con.entryList.map (fun e => (e, none)))
    ∧ (∀ sc, planStep ss (fuel + 1) (.top (.seq sc)) =
        planStep ss fuel (.seqChain (.seqC sc) [] []))
    ∧ (∀ mc, planStep ss (fuel + 1) (.top (.cmd mc)) =
        planStep ss fuel (.cmdChain mc.commandContainer [] [])) := by
  refine ⟨?_, ?_, ?_, fun sc => rfl, fun mc => rfl⟩
  · intro con bc np nr lr next P R hbc hflat hlr hgc h
    simp only [planStep] at h
    rw [hflat] at h
    simp only [] at h
    rw [hbc] at h
    simp only [] at h
    rw [hlr] at h
    simp only [] at h
    rw [hgc] at h
    simp only [] at h
    obtain ⟨NR, hP, hall⟩ := planStep_seq_acc ss fuel next (np ++ []) (nr ++ [] ++ lr) P R h
    obtain ⟨R2, hrun⟩ := hall [] []
    refine ⟨NR ++ [], R2, hrun, ?_⟩
    rw [hP]
    simp
  · intro con bc lr c P R hbc hlr hgc h
    simp only [planStep] at h
    rw [hbc] at h
    simp only [] at h
    rw [hlr] at h
    simp only [] at h
    rw [hgc] at h
    simp only [] at h
    obtain ⟨NR, hP, hall⟩ :=
      planStep_cmd_acc ss fuel c (con.entryList.map (fun e => (e, none)) ++ []) ([] ++ lr) P R h
    obtain ⟨R2, hrun⟩ := hall [] []
    refine ⟨NR ++ [], R2, hrun, ?_⟩
    rw [hP]
    simp
  · intro con bc lr s P R hbc hlr hgc h
    simp only [planStep] at h
    rw [hbc] at h
    simp only [] at h
    rw [hlr] at h
    simp only [] at h
    rw [hgc] at h
    simp only [] at h
    obtain ⟨NR, hP, hall⟩ := planStep_seq_acc ss fuel (.seqC s)
      (con.entryList.map (fun e => (e, none)) ++ []) ([] ++ lr) P R h
    obtain ⟨R2, hrun⟩ := hall [] []
    refine ⟨NR ++ [], R2, hrun, ?_⟩
    rw [hP]
    simp

/-- Witness for C8: in the chain `S8 → B8`, the plan for `S8` lists the outer
container's field `X` first and the input container's field `Y` last. -/
theorem c8_witness :
    planStep ss8 8 (.seqChain (.seqC sub8) [] []) =
      .ok ([(.paramRef "X", none), (.paramRef "Y", none)], [])
    ∧ ∃ PP RR, planStep ss8 7 (.seqChain (.seqC base8) [] []) = .ok (PP, RR)
        ∧ ([(.paramRef "X", (none : Option (List Comparison))), (.paramRef "Y", none)] : Plan) =
          PP ++ [(.paramRef "Y", none)] :=
  ⟨rfl,
    (c8_plan_order ss8 7).1 (.seqC sub8) { containerRef := "B8" }
      [(.paramRef "Y", none)] [] [] (.seqC base8) _ _ rfl rfl rfl rfl rfl⟩

/-! ## Claim theorems for restriction merging on encode (C3) -/

/-- `injectRestrictions` succeeds under the supported comparison trio and its
effect on every key is described by `injSim`: the last restriction naming the
key wins, its XML value is cast with Python `int()`, and the caller's value is
ignored. -/
theorem injectRestrictions_spec (rl : List Comparison) :
    ∀ es : Entries,
      (∀ c ∈ rl, c.comparisonOperator = "==" ∧ c.inst = 0 ∧ c.useCalibratedValue = true ∧
        ∃ i, pyIntOfString c.value = .ok i) →
      ∃ es', injectRestrictions rl es = .ok es' ∧
        ∀ k, getEntry es' k = injSim rl k (getEntry es k) := by
  induction rl with
  | nil => exact fun es _ => ⟨es, rfl, fun k => rfl⟩
  | cons c rest ih =>
    intro es hok
    obtain ⟨hop, hinst, hcal, i, hi⟩ := hok c (List.mem_cons_self c rest)
    obtain ⟨es', hrun, hchar⟩ :=
      ih (setEntry es c.parameterRef (.int i)) (fun c' hc' => hok c' (List.mem_cons_of_mem _ hc'))
    refine ⟨es', ?_, ?_⟩
    · simp only [injectRestrictions]
      rw [if_neg (by rw [hop]; simp), if_neg (by rw [hinst]; simp), if_neg (by rw [hcal]; simp)]
      rw [hi]
      exact hrun
    · intro k
      have hsim : injSim (c :: rest) k (getEntry es k) =
          injSim rest k
            (if c.parameterRef = k then (pyIntOfString c.value).toOption.map Value.int
              else getEntry es k) := rfl
      rw [hchar k, hsim]
      congr 1
      rw [getEntry_setEntry, hi]
      rfl

/-- Claim C3 (amended): on encode, every restriction from the chain is merged
into the caller's record by casting its XML string value with Python `int()`
— regardless of the target field's declared type — and the write
unconditionally overwrites any caller-supplied value (the merged value, given
by `injSim`, does not depend on the previous binding); the record returned by
`encode` carries exactly these merged entries. -/
theorem c3_restriction_merge (ss : SpaceSystem) (fuel : Nat) (msg : Message)
    (plan : Plan) (restrictions : List Comparison) (argIdx : List (String × String))
    (hplan : buildEntryPlan ss fuel msg.message_type = .ok (plan, restrictions))
    (hok : ∀ c ∈ restrictions, c.comparisonOperator = "==" ∧ c.inst = 0 ∧
      c.useCalibratedValue = true ∧ ∃ i, pyIntOfString c.value = .ok i)
    (hargs : buildArgIdx ss fuel msg.message_type = .ok argIdx) :
    ∃ es', injectRestrictions restrictions msg.entries = .ok es'
      ∧ (∀ k, getEntry es' k = injSim restrictions k (getEntry msg.entries k))
      ∧ (∀ bits, encodeEntries ss argIdx es' plan = .ok bits →
          encodeFn ss fuel msg = .ok (bits, { msg with entries := es' })) := by
  obtain ⟨es', hrun, hchar⟩ := injectRestrictions_spec restrictions msg.entries hok
  refine ⟨es', hrun, hchar, fun bits henc => ?_⟩
  unfold encodeFn
  rw [hplan]
  simp only []
  rw [hrun]
  simp only []
  rw [hargs]
  simp only []
  rw [henc]

/-- Claim C3, counterexample to the claim as stated: the restriction `B == 1`
targets a boolean-typed field, yet encode merges the Python integer 1 — not
the field's native boolean — into the caller's record (overwriting the
caller's `True`). -/
theorem c3_counterexample :
    encodeFn ssB 8 msgB =
      .ok ([true],
        { message_type := .seq subC, entries := [("B", Value.bool true), ("B", Value.int 1)] })
    ∧ getEntry [("B", Value.bool true), ("B", Value.int 1)] "B" = some (Value.int 1)
    ∧ Value.int 1 ≠ Value.bool true :=
  ⟨rfl, rfl, by decide⟩

/-- Witness for C3's amended theorem, on the same concrete dictionary. -/
theorem c3_witness :
    buildEntryPlan ssB 8 (.seq subC) = .ok ([(.paramRef "B", none)], [compB])
    ∧ ∃ es', injectRestrictions [compB] msgB.entries = .ok es'
        ∧ (∀ k, getEntry es' k = injSim [compB] k (getEntry msgB.entries k))
        ∧ (∀ bits, encodeEntries ssB [] es' [(.paramRef "B", none)] = .ok bits →
            encodeFn ssB 8 msgB = .ok (bits, { msgB with entries := es' })) :=
  ⟨rfl,
    c3_restriction_merge ssB 8 msgB [(.paramRef "B", none)] [compB] [] rfl
      (by
        intro c hc
        rw [List.mem_singleton] at hc
        subst hc
        exact ⟨rfl, rfl, rfl, 1, rfl⟩)
      rfl⟩

/-! ## Claim theorems for the message round trip (C1) -/

/-- Framing lemma: a plan of unconditional parameter entries whose per-entry
encodings round-trip (and have record-independent sizes) composes into a
message-level round trip — the encoder's concatenation is decoded back
slice-by-slice, every restriction re-check passes, and the final record holds
exactly the encoded values on the plan's names. -/
theorem plan_roundtrip (ss : SpaceSystem) (argIdx : List (String × String))
    (restrictions : List Comparison) (es0 : Entries) :
    ∀ plan : Plan, (∀ pe ∈ plan, PlanItemOK ss restrictions es0 pe) →
    ∃ bs, encodeEntries ss argIdx es0 plan = .ok bs ∧
      ∀ es, ∃ esf, decodeEntries ss argIdx restrictions es bs plan = .ok (esf, []) ∧
        ∀ k, (k ∈ planParamNames plan → getEntry esf k = getEntry es0 k)
          ∧ (k ∉ planParamNames plan → getEntry esf k = getEntry es k) := by
  intro plan
  induction plan with
  | nil =>
    intro _
    refine ⟨[], rfl, fun es => ⟨es, rfl, fun k => ⟨fun hk => ?_, fun _ => rfl⟩⟩⟩
    simp [planParamNames] at hk
  | cons pe rest ih =>
    intro hall
    obtain ⟨hconds, name, p, et, n, v, bits, hentry, hp, het, hsize, hget0, hencv, hbitslen,
      hdecv, hrestr⟩ := hall pe (List.mem_cons_self pe rest)
    obtain ⟨bs, hencrest, hdecrest⟩ := ih (fun x hx => hall x (List.mem_cons_of_mem _ hx))
    obtain ⟨e1, c1⟩ := pe
    simp only [] at hentry hconds
    subst hentry hconds
    have hnames : planParamNames ((Entry.paramRef name, none) :: rest) =
        name :: planParamNames rest := rfl
    have henc : encodeEntries ss argIdx es0 ((Entry.paramRef name, none) :: rest) =
        .ok (bits ++ bs) := by
      simp only [encodeEntries, conditionsPass]
      rw [hp]
      simp only []
      rw [het]
      simp only [getEntryE]
      rw [hget0]
      simp only []
      rw [hencv es0]
      simp only []
      rw [hencrest]
    refine ⟨bits ++ bs, henc, fun es => ?_⟩
    obtain ⟨esf, hrun, hchar⟩ := hdecrest (setEntry es name v)
    have htake : (bits ++ bs).take n = bits := by
      rw [← hbitslen]; exact List.take_left bits bs
    have hdrop : (bits ++ bs).drop n = bs := by
      rw [← hbitslen]; exact List.drop_left bits bs
    have hpop : popEntry es (bits ++ bs) name et = .ok (setEntry es name v, bs) := by
      simp only [popEntry]
      rw [hsize es]
      simp only []
      rw [htake, hdecv]
      simp only []
      rw [hdrop]
    have hdec : decodeEntries ss argIdx restrictions es (bits ++ bs)
        ((Entry.paramRef name, none) :: rest) = .ok (esf, []) := by
      simp only [decodeEntries, conditionsPass]
      rw [hp]
      simp only []
      rw [het]
      simp only []
      rw [hpop]
      simp only []
      cases hfil : restrictions.filter (fun c => c.parameterRef = name) with
      | nil =>
        simp only []
        exact hrun
      | cons c' cs' =>
        simp only []
        have hmet : conditionsMet (setEntry es name v) (c' :: cs') = .ok true := by
          apply conditionsMet_all
          intro c hc
          have hcmem : c ∈ restrictions.filter (fun x => x.parameterRef = name) := by
            rw [hfil]; exact hc
          have h2 := List.mem_filter.mp hcmem
          have hpr : c.parameterRef = name := of_decide_eq_true h2.2
          obtain ⟨hop2, hinst2, hcal2, hstr2⟩ := hrestr c h2.1 hpr
          exact ⟨hop2, hinst2, hcal2, v,
            by rw [hpr]; exact getEntry_setEntry_self es name v, hstr2⟩
        rw [hmet]
        simp only []
        exact hrun
    refine ⟨esf, hdec, fun k => ⟨fun hk => ?_, fun hk => ?_⟩⟩
    · rw [hnames] at hk
      by_cases hkr : k ∈ planParamNames rest
      · exact (hchar k).1 hkr
      · have hkn : k = name := by
          rcases List.mem_cons.mp hk with h1 | h1
          · exact h1
          · exact absurd h1 hkr
        subst hkn
        rw [(hchar k).2 hkr, getEntry_setEntry_self, hget0]
    · rw [hnames] at hk
      have hkn : k ≠ name := fun hcon => hk (by rw [hcon]; exact List.mem_cons_self name _)
      have hkr : k ∉ planParamNames rest := fun hcon => hk (List.mem_cons_of_mem _ hcon)
      rw [(hchar k).2 hkr, getEntry_setEntry, if_neg (fun hcon => hkn hcon.symm)]

/-- Keys not named by any restriction are untouched by restriction merging. -/
theorem injectRestrictions_untouched (rl : List Comparison) :
    ∀ es es', injectRestrictions rl es = .ok es' →
      ∀ k, (∀ c ∈ rl, c.parameterRef ≠ k) → getEntry es' k = getEntry es k := by
  induction rl with
  | nil =>
    intro es es' h k _
    cases h
    rfl
  | cons c rest ih =>
    intro es es' h k hk
    simp only [injectRestrictions] at h
    by_cases h1 : c.comparisonOperator ≠ "=="
    · rw [if_pos h1] at h; cases h
    · rw [if_neg h1] at h
      by_cases h2 : c.inst ≠ 0
      · rw [if_pos h2] at h; cases h
      · rw [if_neg h2] at h
        by_cases h3 : c.useCalibratedValue ≠ true
        · rw [if_pos h3] at h; cases h
        · rw [if_neg h3] at h
          cases hpi : pyIntOfString c.value with
          | error e => rw [hpi] at h; cases h
          | ok i =>
            rw [hpi] at h
            simp only [] at h
            rw [ih _ _ h k (fun c' hc' => hk c' (List.mem_cons_of_mem _ hc')),
              getEntry_setEntry, if_neg (hk c (List.mem_cons_self c rest))]

/-- Claim C1 (amended): for a concrete message type whose flattened plan
consists of unconditional parameter entries, with resolvable
record-independent encodings that round-trip the record's values exactly
(in particular in-range integer values — the counterexample shows an
out-of-range value breaks the law as originally stated), with restrictions
in the supported form whose merged values satisfy their own string re-check,
and a record whose keys all come from the plan or the restrictions:
`decode(T, encode(msg))` succeeds with the same message type and the same
entries, modulo restriction-injected fields. -/
theorem c1_roundtrip (ss : SpaceSystem) (fuel : Nat) (msg : Message)
    (plan : Plan) (restrictions : List Comparison) (argIdx : List (String × String))
    (es0 : Entries)
    (habs : msg.message_type.abstract = false)
    (hplan : buildEntryPlan ss (fuel + 1) msg.message_type = .ok (plan, restrictions))
    (hinj : injectRestrictions restrictions msg.entries = .ok es0)
    (hargs : buildArgIdx ss (fuel + 1) msg.message_type = .ok argIdx)
    (hitems : ∀ pe ∈ plan, PlanItemOK ss restrictions es0 pe)
    (hdom : ∀ k, getEntry msg.entries k ≠ none →
      k ∈ planParamNames plan ∨ ∃ c ∈ restrictions, c.parameterRef = k) :
    ∃ bits msgD,
      encodeFn ss (fuel + 1) msg = .ok (bits, { msg with entries := es0 })
      ∧ decodeFn ss (fuel + 1) msg.message_type bits false = .ok msgD
      ∧ msgD.message_type = msg.message_type
      ∧ ∀ k, (¬ ∃ c ∈ restrictions, c.parameterRef = k) →
          getEntry msgD.entries k = getEntry msg.entries k := by
  obtain ⟨bs, hencE, hdecE⟩ := plan_roundtrip ss argIdx restrictions es0 plan hitems
  obtain ⟨esf, hdecRun, hchar⟩ := hdecE []
  have hencFn : encodeFn ss (fuel + 1) msg = .ok (bs, { msg with entries := es0 }) := by
    unfold encodeFn
    rw [hplan]
    simp only []
    rw [hinj]
    simp only []
    rw [hargs]
    simp only []
    rw [hencE]
  have hdm : decodeMessageFn ss (fuel + 1) msg.message_type bs =
      .ok ({ message_type := msg.message_type, entries := esf }, []) := by
    unfold decodeMessageFn
    rw [hplan]
    simp only []
    rw [hargs]
    simp only []
    rw [hdecRun]
  have hdecFn : decodeFn ss (fuel + 1) msg.message_type bs false =
      .ok { message_type := msg.message_type, entries := esf } := by
    unfold decodeFn
    simp only [decodeStep]
    rw [hdm]
    simp only []
    rw [if_pos ⟨by trivial, Or.inr (by trivial)⟩]
  refine ⟨bs, { message_type := msg.message_type, entries := esf }, hencFn, hdecFn, rfl,
    fun k hk => ?_⟩
  have huntouched : getEntry es0 k = getEntry msg.entries k :=
    injectRestrictions_untouched restrictions msg.entries es0 hinj k
      (fun c hc hck => hk ⟨c, hc, hck⟩)
  by_cases hkp : k ∈ planParamNames plan
  · show getEntry esf k = getEntry msg.entries k
    rw [(hchar k).1 hkp, huntouched]
  · show getEntry esf k = getEntry msg.entries k
    rw [(hchar k).2 hkp]
    cases hmk : getEntry msg.entries k with
    | none => rfl
    | some v =>
      rcases hdom k (by rw [hmk]; simp) with h1 | h2
      · exact absurd h1 hkp
      · exact absurd h2 hk

/-- Claim C1, counterexample to the claim as stated: a record whose entries
vacuously satisfy the (empty) chain restrictions does not round-trip — the
3-bit unsigned field truncates the caller's value 9 to 1 on encode, so the
decoded record differs from the input. -/
theorem c1_counterexample :
    buildEntryPlan ss1 8 (.seq conC) = .ok ([(.paramRef "P", none)], [])
    ∧ encodeFn ss1 8 msg1 = .ok ([false, false, true], msg1)
    ∧ decodeFn ss1 8 (.seq conC) [false, false, true] false =
        .ok { message_type := .seq conC, entries := [("P", Value.int 1)] }
    ∧ getEntry [("P", Value.int 1)] "P" ≠ getEntry msg1.entries "P" :=
  ⟨rfl, rfl, rfl, by decide⟩

/-- Witness for the amended C1 on a concrete two-parameter container with
in-range 8-bit values. -/
theorem c1_roundtrip_witness :
    ∃ bits msgD,
      encodeFn ssW 8 msgW = .ok (bits, { msgW with entries := msgW.entries })
      ∧ decodeFn ssW 8 msgW.message_type bits false = .ok msgD
      ∧ msgD.message_type = msgW.message_type
      ∧ ∀ k, (¬ ∃ c ∈ ([] : List Comparison), c.parameterRef = k) →
          getEntry msgD.entries k = getEntry msgW.entries k :=
  c1_roundtrip ssW 7 msgW [(.paramRef "A", none), (.paramRef "Bp", none)] [] [] msgW.entries
    rfl rfl rfl rfl
    (by
      intro pe hpe
      rcases List.mem_cons.mp hpe with h | h
      · subst h
        exact ⟨rfl, "A", { name := "A", parameterTypeRef := "I8" },
          .intT { encoding := .unsigned, sizeInBits := 8 }, 8, .int 5,
          [false, false, false, false, false, true, false, true],
          rfl, rfl, rfl, fun es => rfl, rfl, fun es => rfl, rfl, rfl,
          fun c hc => absurd hc (List.not_mem_nil c)⟩
      · rcases List.mem_cons.mp h with h2 | h2
        · subst h2
          exact ⟨rfl, "Bp", { name := "Bp", parameterTypeRef := "I8" },
            .intT { encoding := .unsigned, sizeInBits := 8 }, 8, .int 7,
            [false, false, false, false, false, true, true, true],
            rfl, rfl, rfl, fun es => rfl, rfl, fun es => rfl, rfl, rfl,
            fun c hc => absurd hc (List.not_mem_nil c)⟩
        · exact absurd h2 (List.not_mem_nil pe))
    (by
      intro k hk
      left
      simp only [msgW, getEntry, List.foldl_cons, List.foldl_nil] at hk
      by_cases h1 : ("Bp" : String) = k
      · subst h1
        decide
      · rw [if_neg h1] at hk
        by_cases h2 : ("A" : String) = k
        · subst h2
          decide
        · rw [if_neg h2] at hk
          exact absurd rfl hk)

end Xtce
